import Mathlib

/-!
# Bondi finance app: a shallow embedding of the core data layer

This file embeds the algorithmic core of `Bondï_app.py` in Lean 4 and proves
(or refutes) the specified properties:

* the reversible text codec (`encode_text`, `decode_text`, `maybe_decode_text`),
* the structural encoder/decoder over nested JSON-like values
  (`encode_structure`, `decode_structure`),
* the streak tracker (`increment_streak`),
* the split engine (`split_equally`, `split_by_percentage`),
* the sorting utilities (`selection_sort`, `quicksort_expenses_by_amount`).

Modelling conventions:

* Python `str` is modelled by Lean `String` (sequences of Unicode scalar
  values; Python's lone surrogates are not representable and are not needed
  by any theorem below).
* Python's unbounded `int` is `Int`/`Nat`.
* Python `float` (IEEE-754 binary64) is modelled as the exact rational value
  of the double; `toDouble` rounds an exact rational to 53 significant bits
  (round half to even).  Exponent overflow/underflow and subnormals are not
  modelled; every value appearing in the theorems is far inside the normal
  range, where binary64 behaves exactly like this idealisation.
* Exceptions (`ValueError`, `OverflowError`) are modelled with `Except`.
-/

namespace Bondi

/-- The Python exceptions that the embedded code can raise. -/
inductive PyErr where
  | valueError
  | overflowError
  deriving DecidableEq, Repr

instance {α β : Type} [DecidableEq α] [DecidableEq β] : DecidableEq (Except α β) :=
  fun a b =>
    match a, b with
    | .ok x, .ok y => if h : x = y then .isTrue (by rw [h]) else .isFalse (by simp [h])
    | .error x, .error y => if h : x = y then .isTrue (by rw [h]) else .isFalse (by simp [h])
    | .ok _, .error _ => .isFalse (by simp)
    | .error _, .ok _ => .isFalse (by simp)

/-! ## Character and digit primitives -/

/-- ASCII decimal digit test (`'0'..'9'`). -/
def isAsciiDigit (c : Char) : Bool :=
  48 ≤ c.toNat && c.toNat ≤ 57

/-- The numeric value of an ASCII digit character. -/
def digitVal (c : Char) : Nat := c.toNat - 48

/-- The ASCII digit character for a value `< 10`. -/
def digitChar (d : Nat) : Char := Char.ofNat (48 + d)

/-- The ASCII whitespace `int()` and `float()` strip (CPython `Py_ISSPACE`:
space, `\t`, `\n`, `\r`, `\v`, `\f`); non-ASCII whitespace is turned into
`' '` beforehand by the decimal-and-space transform modelled below.  Also
used for `str.split()`, whose wider separator set (`\x1c`–`\x1f`, Unicode
spaces) never occurs in the encoded data or concrete inputs the theorems
exercise. -/
def isPyWS (c : Char) : Bool :=
  c = ' ' || c = '\t' || c = '\n' || c = '\x0d' || c = '\x0b' || c = '\x0c'

/-- Little-endian digit list of `n`, with explicit recursion fuel so that
the kernel can evaluate it (`fuel > n` always suffices). -/
def natDigitsLEAux : Nat → Nat → List Char
  | _, 0 => []
  | n, fuel + 1 =>
      if n < 10 then [digitChar n]
      else digitChar (n % 10) :: natDigitsLEAux (n / 10) fuel

/-- Little-endian digit list of `n` (used to build `str(n)`). -/
def natDigitsLE (n : Nat) : List Char := natDigitsLEAux n (n + 1)

/-- The characters of Python `str(n)` for a natural number. -/
def natChars (n : Nat) : List Char := (natDigitsLE n).reverse

/-- Python `str(n)` for a natural number. -/
def pyNatStr (n : Nat) : String := ⟨natChars n⟩

/-- Python `str(n)` for an `int` (decimal, with a leading `-` if negative). -/
def pyIntStr (n : Int) : String :=
  if n < 0 then "-" ++ pyNatStr n.natAbs else pyNatStr n.natAbs

/-- One step of decimal accumulation. -/
def digitStep (acc : Nat) (c : Char) : Nat := 10 * acc + digitVal c

/-- Parse the tail of a Python `digitpart` (digits with single underscores
allowed only between digits), accumulating into `acc`; also counts digits.
Returns `none` on a malformed part. -/
def digitPartAux (acc : Nat) (cnt : Nat) : List Char → Option (Nat × Nat)
  | [] => some (acc, cnt)
  | c :: rest =>
      if isAsciiDigit c then digitPartAux (digitStep acc c) (cnt + 1) rest
      else if c = '_' then
        match rest with
        | [] => none
        | c2 :: rest2 =>
            if isAsciiDigit c2 then digitPartAux (digitStep acc c2) (cnt + 1) rest2
            else none
      else none

/-- Parse a complete nonempty `digitpart`; yields its value and digit count.
It must start with a digit (a leading underscore or sign is not part of a
`digitpart`). -/
def digitPartVal (l : List Char) : Option (Nat × Nat) :=
  match l with
  | [] => none
  | c :: rest => if isAsciiDigit c then digitPartAux (digitVal c) 1 rest else none

/-- The decimal digit value of a code point (Unicode `Numeric_Type=Decimal`,
i.e. the `Nd` category): each run is ten consecutive code points carrying the
values `0`–`9`.  The runs are taken from the Unicode character database used
by CPython.  These are exactly the digits `int()` and `float()` accept. -/
def pyDecDigit (n : Nat) : Option Nat :=
  if 0x30 ≤ n ∧ n ≤ 0x39 then some (n - 0x30)
  else if 0x660 ≤ n ∧ n ≤ 0x669 then some (n - 0x660)
  else if 0x6F0 ≤ n ∧ n ≤ 0x6F9 then some (n - 0x6F0)
  else if 0x7C0 ≤ n ∧ n ≤ 0x7C9 then some (n - 0x7C0)
  else if 0x966 ≤ n ∧ n ≤ 0x96F then some (n - 0x966)
  else if 0x9E6 ≤ n ∧ n ≤ 0x9EF then some (n - 0x9E6)
  else if 0xA66 ≤ n ∧ n ≤ 0xA6F then some (n - 0xA66)
  else if 0xAE6 ≤ n ∧ n ≤ 0xAEF then some (n - 0xAE6)
  else if 0xB66 ≤ n ∧ n ≤ 0xB6F then some (n - 0xB66)
  else if 0xBE6 ≤ n ∧ n ≤ 0xBEF then some (n - 0xBE6)
  else if 0xC66 ≤ n ∧ n ≤ 0xC6F then some (n - 0xC66)
  else if 0xCE6 ≤ n ∧ n ≤ 0xCEF then some (n - 0xCE6)
  else if 0xD66 ≤ n ∧ n ≤ 0xD6F then some (n - 0xD66)
  else if 0xDE6 ≤ n ∧ n ≤ 0xDEF then some (n - 0xDE6)
  else if 0xE50 ≤ n ∧ n ≤ 0xE59 then some (n - 0xE50)
  else if 0xED0 ≤ n ∧ n ≤ 0xED9 then some (n - 0xED0)
  else if 0xF20 ≤ n ∧ n ≤ 0xF29 then some (n - 0xF20)
  else if 0x1040 ≤ n ∧ n ≤ 0x1049 then some (n - 0x1040)
  else if 0x1090 ≤ n ∧ n ≤ 0x1099 then some (n - 0x1090)
  else if 0x17E0 ≤ n ∧ n ≤ 0x17E9 then some (n - 0x17E0)
  else if 0x1810 ≤ n ∧ n ≤ 0x1819 then some (n - 0x1810)
  else if 0x1946 ≤ n ∧ n ≤ 0x194F then some (n - 0x1946)
  else if 0x19D0 ≤ n ∧ n ≤ 0x19D9 then some (n - 0x19D0)
  else if 0x1A80 ≤ n ∧ n ≤ 0x1A89 then some (n - 0x1A80)
  else if 0x1A90 ≤ n ∧ n ≤ 0x1A99 then some (n - 0x1A90)
  else if 0x1B50 ≤ n ∧ n ≤ 0x1B59 then some (n - 0x1B50)
  else if 0x1BB0 ≤ n ∧ n ≤ 0x1BB9 then some (n - 0x1BB0)
  else if 0x1C40 ≤ n ∧ n ≤ 0x1C49 then some (n - 0x1C40)
  else if 0x1C50 ≤ n ∧ n ≤ 0x1C59 then some (n - 0x1C50)
  else if 0xA620 ≤ n ∧ n ≤ 0xA629 then some (n - 0xA620)
  else if 0xA8D0 ≤ n ∧ n ≤ 0xA8D9 then some (n - 0xA8D0)
  else if 0xA900 ≤ n ∧ n ≤ 0xA909 then some (n - 0xA900)
  else if 0xA9D0 ≤ n ∧ n ≤ 0xA9D9 then some (n - 0xA9D0)
  else if 0xA9F0 ≤ n ∧ n ≤ 0xA9F9 then some (n - 0xA9F0)
  else if 0xAA50 ≤ n ∧ n ≤ 0xAA59 then some (n - 0xAA50)
  else if 0xABF0 ≤ n ∧ n ≤ 0xABF9 then some (n - 0xABF0)
  else if 0xFF10 ≤ n ∧ n ≤ 0xFF19 then some (n - 0xFF10)
  else if 0x104A0 ≤ n ∧ n ≤ 0x104A9 then some (n - 0x104A0)
  else if 0x10D30 ≤ n ∧ n ≤ 0x10D39 then some (n - 0x10D30)
  else if 0x11066 ≤ n ∧ n ≤ 0x1106F then some (n - 0x11066)
  else if 0x110F0 ≤ n ∧ n ≤ 0x110F9 then some (n - 0x110F0)
  else if 0x11136 ≤ n ∧ n ≤ 0x1113F then some (n - 0x11136)
  else if 0x111D0 ≤ n ∧ n ≤ 0x111D9 then some (n - 0x111D0)
  else if 0x112F0 ≤ n ∧ n ≤ 0x112F9 then some (n - 0x112F0)
  else if 0x11450 ≤ n ∧ n ≤ 0x11459 then some (n - 0x11450)
  else if 0x114D0 ≤ n ∧ n ≤ 0x114D9 then some (n - 0x114D0)
  else if 0x11650 ≤ n ∧ n ≤ 0x11659 then some (n - 0x11650)
  else if 0x116C0 ≤ n ∧ n ≤ 0x116C9 then some (n - 0x116C0)
  else if 0x11730 ≤ n ∧ n ≤ 0x11739 then some (n - 0x11730)
  else if 0x118E0 ≤ n ∧ n ≤ 0x118E9 then some (n - 0x118E0)
  else if 0x11950 ≤ n ∧ n ≤ 0x11959 then some (n - 0x11950)
  else if 0x11C50 ≤ n ∧ n ≤ 0x11C59 then some (n - 0x11C50)
  else if 0x11D50 ≤ n ∧ n ≤ 0x11D59 then some (n - 0x11D50)
  else if 0x11DA0 ≤ n ∧ n ≤ 0x11DA9 then some (n - 0x11DA0)
  else if 0x16A60 ≤ n ∧ n ≤ 0x16A69 then some (n - 0x16A60)
  else if 0x16AC0 ≤ n ∧ n ≤ 0x16AC9 then some (n - 0x16AC0)
  else if 0x16B50 ≤ n ∧ n ≤ 0x16B59 then some (n - 0x16B50)
  else if 0x1D7CE ≤ n ∧ n ≤ 0x1D7D7 then some (n - 0x1D7CE)
  else if 0x1D7D8 ≤ n ∧ n ≤ 0x1D7E1 then some (n - 0x1D7D8)
  else if 0x1D7E2 ≤ n ∧ n ≤ 0x1D7EB then some (n - 0x1D7E2)
  else if 0x1D7EC ≤ n ∧ n ≤ 0x1D7F5 then some (n - 0x1D7EC)
  else if 0x1D7F6 ≤ n ∧ n ≤ 0x1D7FF then some (n - 0x1D7F6)
  else if 0x1E140 ≤ n ∧ n ≤ 0x1E149 then some (n - 0x1E140)
  else if 0x1E2F0 ≤ n ∧ n ≤ 0x1E2F9 then some (n - 0x1E2F0)
  else if 0x1E950 ≤ n ∧ n ≤ 0x1E959 then some (n - 0x1E950)
  else if 0x1FBF0 ≤ n ∧ n ≤ 0x1FBF9 then some (n - 0x1FBF0)
  else none

/-- The code points accepted by Python's `str.isdigit`: those with Unicode
`Numeric_Type` of `Decimal` or `Digit` (so, beyond the `Nd` runs of
`pyDecDigit`, also `²`-style superscripts, subscripts, circled digits,
Ethiopic digits, and so on).  Ranges from the Unicode character database
used by CPython. -/
def pyIsDigitCode (n : Nat) : Bool :=
  (pyDecDigit n).isSome ||
  decide (0xB2 ≤ n ∧ n ≤ 0xB3) ||
  decide (n = 0xB9) ||
  decide (0x1369 ≤ n ∧ n ≤ 0x1371) ||
  decide (n = 0x19DA) ||
  decide (n = 0x2070) ||
  decide (0x2074 ≤ n ∧ n ≤ 0x2079) ||
  decide (0x2080 ≤ n ∧ n ≤ 0x2089) ||
  decide (0x2460 ≤ n ∧ n ≤ 0x2468) ||
  decide (0x2474 ≤ n ∧ n ≤ 0x247C) ||
  decide (0x2488 ≤ n ∧ n ≤ 0x2490) ||
  decide (n = 0x24EA) ||
  decide (0x24F5 ≤ n ∧ n ≤ 0x24FD) ||
  decide (n = 0x24FF) ||
  decide (0x2776 ≤ n ∧ n ≤ 0x277E) ||
  decide (0x2780 ≤ n ∧ n ≤ 0x2788) ||
  decide (0x278A ≤ n ∧ n ≤ 0x2792) ||
  decide (0x10A40 ≤ n ∧ n ≤ 0x10A43) ||
  decide (0x10E60 ≤ n ∧ n ≤ 0x10E68) ||
  decide (0x11052 ≤ n ∧ n ≤ 0x1105A) ||
  decide (0x1F100 ≤ n ∧ n ≤ 0x1F10A)

/-- The non-ASCII code points Python treats as whitespace
(`Py_UNICODE_ISSPACE`): NEL, NBSP, the typographic spaces, line/paragraph
separators, and the ideographic space. -/
def pyUniSpace (n : Nat) : Bool :=
  decide (n = 0x85 ∨ n = 0xA0 ∨ n = 0x1680 ∨ (0x2000 ≤ n ∧ n ≤ 0x200A) ∨
    n = 0x2028 ∨ n = 0x2029 ∨ n = 0x202F ∨ n = 0x205F ∨ n = 0x3000)

/-- One character of CPython's `_PyUnicode_TransformDecimalAndSpaceToASCII`,
the preprocessing step `int()` and `float()` apply to `str` arguments: ASCII
characters pass through, non-ASCII whitespace becomes `' '`, Unicode decimal
digits become their ASCII counterparts, and any other non-ASCII character
makes the subsequent parse fail (CPython substitutes `'?'`, which the ASCII
parser then rejects). -/
def pyToAscii (c : Char) : Option Char :=
  if c.toNat < 128 then some c
  else if pyUniSpace c.toNat then some ' '
  else (pyDecDigit c.toNat).map (fun d => digitChar d)

/-- `_PyUnicode_TransformDecimalAndSpaceToASCII` over a character list;
`none` when the parse is doomed by a non-ASCII non-digit non-space
character. -/
def pyTransformDecimal : List Char → Option (List Char)
  | [] => some []
  | c :: rest =>
      match pyToAscii c with
      | none => none
      | some c2 => (pyTransformDecimal rest).map (fun r => c2 :: r)

theorem isAsciiDigit_lt_128 (c : Char) (h : isAsciiDigit c = true) :
    c.toNat < 128 := by
  have hb : 48 ≤ c.toNat ∧ c.toNat ≤ 57 := by
    simpa [isAsciiDigit, Bool.and_eq_true, decide_eq_true_eq] using h
  omega

theorem pyToAscii_ascii (c : Char) (h : c.toNat < 128) : pyToAscii c = some c := by
  rw [pyToAscii, if_pos h]

/-- The ASCII transform is the identity on ASCII strings. -/
theorem pyTransformDecimal_ascii :
    ∀ l : List Char, (∀ c ∈ l, c.toNat < 128) → pyTransformDecimal l = some l := by
  intro l h
  induction l with
  | nil => rfl
  | cons c rest ih =>
      rw [pyTransformDecimal]
      rw [pyToAscii_ascii c (h c (List.mem_cons_self c rest))]
      rw [ih (fun x hx => h x (List.mem_cons_of_mem c hx))]
      rfl

/-- The ASCII body of `int()` after the transform: optional surrounding
whitespace, optional sign, then a `digitpart`. -/
def pyIntParseAscii (cs0 : List Char) : Option Int :=
  let cs := ((cs0.dropWhile isPyWS).reverse.dropWhile isPyWS).reverse
  match cs with
  | [] => none
  | c :: rest =>
      if c = '-' then (digitPartVal rest).map (fun p => -(p.1 : Int))
      else if c = '+' then (digitPartVal rest).map (fun p => (p.1 : Int))
      else (digitPartVal (c :: rest)).map (fun p => (p.1 : Int))

/-- Python `int(s)` on a string: the decimal-and-space-to-ASCII transform,
then the ASCII parse.  `none` models `ValueError`. -/
def pyIntParse (s : String) : Option Int :=
  (pyTransformDecimal s.data).bind pyIntParseAscii

/-- Python `chr(n)`.  CPython first converts the argument to a C `int`
(raising `OverflowError` outside `[-2^31, 2^31)`), then checks the Unicode
range (raising `ValueError`).  Code points that are lone surrogates are
accepted by Python but not representable as a Lean `Char`; `Char.ofNat`
maps them to `'\x00'`.  No theorem below touches the surrogate range. -/
def pyChr (n : Int) : Except PyErr Char :=
  if n < -(2 ^ 31) ∨ 2 ^ 31 ≤ n then .error .overflowError
  else if n < 0 ∨ 0x110000 ≤ n then .error .valueError
  else .ok (Char.ofNat n.toNat)

/-! ## The reversible text codec

Source: `encode_text`, `decode_text`, `maybe_decode_text`
(`Bondï_app.py` lines 149–181). -/

/-- `" ".join(tokens)` at the character-list level. -/
def joinTokens : List (List Char) → List Char
  | [] => []
  | [t] => t
  | t :: rest => t ++ ' ' :: joinTokens rest

/-- Python `s.split()` with explicit recursion fuel (any
`fuel > length` gives the true result). -/
def pyWordsAux : Nat → List Char → List (List Char)
  | 0, _ => []
  | _ + 1, [] => []
  | fuel + 1, c :: rest =>
      if isPyWS c then pyWordsAux fuel rest
      else (c :: rest.takeWhile (fun x => !isPyWS x)) ::
        pyWordsAux fuel (rest.dropWhile (fun x => !isPyWS x))

/-- Python `s.split()` (split on whitespace runs, dropping empty tokens),
at the character-list level. -/
def pyWords (cs : List Char) : List (List Char) := pyWordsAux (cs.length + 1) cs

/-- `encode_text`: every character becomes its decimal code point, joined
with single spaces. -/
def encode_text (s : String) : String :=
  ⟨joinTokens (s.data.map (fun c => natChars c.toNat))⟩

/-- Decode a list of split tokens: `chr(int(p))` for each token.
`int` failures are `ValueError`; `chr` can also raise `OverflowError`. -/
def decodeTokens : List (List Char) → Except PyErr (List Char)
  | [] => .ok []
  | t :: rest =>
      match pyIntParse ⟨t⟩ with
      | none => .error .valueError
      | some n =>
          match pyChr n with
          | .error e => .error e
          | .ok c =>
              match decodeTokens rest with
              | .error e => .error e
              | .ok cs => .ok (c :: cs)

/-- `decode_text`: empty input yields `""`; otherwise split on whitespace and
decode each token.  Parse errors propagate (the source has no handler). -/
def decode_text (s : String) : Except PyErr String :=
  if s = "" then .ok ""
  else (decodeTokens (pyWords s.data)).map fun cs => ⟨cs⟩

/-- `maybe_decode_text`: like `decode_text` but a `ValueError` is caught and
the original string returned.  An `OverflowError` (huge token) escapes the
`except ValueError` handler, exactly as in the source. -/
def maybe_decode_text (s : String) : Except PyErr String :=
  if s = "" then .ok ""
  else
    match decodeTokens (pyWords s.data) with
    | .ok cs => .ok ⟨cs⟩
    | .error .valueError => .ok s
    | .error e => .error e

/-! ## Round-trip lemmas for the text codec -/

theorem natDigitsLEAux_digits :
    ∀ (fuel n : Nat), n < fuel →
      ∀ c ∈ natDigitsLEAux n fuel, ∃ d, d < 10 ∧ c = digitChar d := by
  intro fuel
  induction fuel with
  | zero => intro n h; omega
  | succ f ih =>
      intro n h c hc
      rw [natDigitsLEAux] at hc
      split at hc
      · simp only [List.mem_singleton] at hc
        exact ⟨n, by omega, hc⟩
      · rcases List.mem_cons.1 hc with hc | hc
        · exact ⟨n % 10, Nat.mod_lt _ (by omega), hc⟩
        · exact ih (n / 10) (by omega) c hc

/-- Characters produced by `natDigitsLE` are ASCII digits. -/
theorem natDigitsLE_digits (n : Nat) :
    ∀ c ∈ natDigitsLE n, ∃ d, d < 10 ∧ c = digitChar d :=
  natDigitsLEAux_digits (n + 1) n (Nat.lt_succ_self n)

theorem natDigitsLE_ne_nil (n : Nat) : natDigitsLE n ≠ [] := by
  rw [natDigitsLE, natDigitsLEAux]
  split <;> simp

theorem digitVal_digitChar {d : Nat} (h : d < 10) : digitVal (digitChar d) = d := by
  interval_cases d <;> decide

theorem isAsciiDigit_digitChar {d : Nat} (h : d < 10) :
    isAsciiDigit (digitChar d) = true := by
  interval_cases d <;> decide

theorem digitChar_not_ws {d : Nat} (h : d < 10) : isPyWS (digitChar d) = false := by
  interval_cases d <;> decide

theorem digitChar_ne_dash {d : Nat} (h : d < 10) : digitChar d ≠ '-' := by
  interval_cases d <;> decide

theorem digitChar_ne_plus {d : Nat} (h : d < 10) : digitChar d ≠ '+' := by
  interval_cases d <;> decide

theorem digitChar_ne_dot {d : Nat} (h : d < 10) : digitChar d ≠ '.' := by
  interval_cases d <;> decide

theorem foldr_natDigitsLEAux :
    ∀ (fuel n : Nat), n < fuel →
      (natDigitsLEAux n fuel).foldr (fun c a => 10 * a + digitVal c) 0 = n := by
  intro fuel
  induction fuel with
  | zero => intro n h; omega
  | succ f ih =>
      intro n h
      rw [natDigitsLEAux]
      split
      · next hlt => simp [digitVal_digitChar hlt]
      · next hge =>
          simp only [List.foldr_cons, ih (n / 10) (by omega),
            digitVal_digitChar (Nat.mod_lt n (by omega))]
          omega

/-- Folding the decimal steps over the little-endian digits recovers `n`. -/
theorem foldr_natDigitsLE (n : Nat) :
    (natDigitsLE n).foldr (fun c a => 10 * a + digitVal c) 0 = n :=
  foldr_natDigitsLEAux (n + 1) n (Nat.lt_succ_self n)

/-- `digitPartAux` on a list of plain digits accumulates their value. -/
theorem digitPartAux_all_digits :
    ∀ (l : List Char) (acc cnt : Nat), (∀ c ∈ l, isAsciiDigit c = true) →
      digitPartAux acc cnt l = some (l.foldl digitStep acc, cnt + l.length) := by
  intro l
  induction l with
  | nil => intro acc cnt _; simp [digitPartAux]
  | cons c rest ih =>
      intro acc cnt h
      rw [digitPartAux.eq_def]
      simp only
      rw [if_pos (h c (List.mem_cons_self c rest))]
      rw [ih _ _ (fun x hx => h x (List.mem_cons_of_mem c hx))]
      have hcnt : cnt + 1 + rest.length = cnt + (rest.length + 1) := by omega
      simp [List.foldl_cons, List.length_cons, hcnt]

/-- Any nonempty list of plain digit characters parses as a `digitpart`,
with the expected value and digit count. -/
theorem digitPartVal_all_digits (L : List Char) (hne : L ≠ [])
    (hall : ∀ c ∈ L, isAsciiDigit c = true) :
    digitPartVal L = some (L.foldl digitStep 0, L.length) := by
  obtain ⟨c, rest, rfl⟩ := List.exists_cons_of_ne_nil hne
  rw [digitPartVal]
  rw [if_pos (hall c (List.mem_cons_self c rest))]
  rw [digitPartAux_all_digits rest (digitVal c) 1
    (fun x hx => hall x (List.mem_cons_of_mem c hx))]
  have h0 : (c :: rest).foldl digitStep 0 = rest.foldl digitStep (digitVal c) := by
    simp [List.foldl_cons, digitStep]
  rw [h0]
  simp [Nat.add_comm]

theorem natChars_all_digits (n : Nat) : ∀ c ∈ natChars n, isAsciiDigit c = true := by
  intro c hc
  obtain ⟨d, hd, rfl⟩ := natDigitsLE_digits n c (List.mem_reverse.1 hc)
  exact isAsciiDigit_digitChar hd

theorem foldl_natChars (n : Nat) : (natChars n).foldl digitStep 0 = n := by
  show (natDigitsLE n).reverse.foldl digitStep 0 = n
  rw [List.foldl_reverse]
  exact foldr_natDigitsLE n

theorem digitPartVal_natChars (n : Nat) :
    digitPartVal (natChars n) = some (n, (natChars n).length) := by
  rw [digitPartVal_all_digits _ (by simp [natChars, natDigitsLE_ne_nil])
    (natChars_all_digits n), foldl_natChars]

/-- No character of `str(n)` is whitespace, a sign, or a dot. -/
theorem natChars_plain (n : Nat) :
    ∀ c ∈ natChars n, isPyWS c = false ∧ c ≠ '-' ∧ c ≠ '+' ∧ c ≠ '.' ∧
      isAsciiDigit c = true := by
  intro c hc
  obtain ⟨d, hd, rfl⟩ := natDigitsLE_digits n c (List.mem_reverse.1 hc)
  exact ⟨digitChar_not_ws hd, digitChar_ne_dash hd, digitChar_ne_plus hd,
    digitChar_ne_dot hd, isAsciiDigit_digitChar hd⟩

theorem natChars_ne_nil (n : Nat) : natChars n ≠ [] := by
  simp [natChars, natDigitsLE_ne_nil]

/-- `int(str(n)) = n`. -/
theorem pyIntParse_pyNatStr (n : Nat) : pyIntParse (pyNatStr n) = some n := by
  obtain ⟨c, rest, hcons⟩ := List.exists_cons_of_ne_nil (natChars_ne_nil n)
  have hplain := natChars_plain n
  have hc := hplain c (hcons ▸ List.mem_cons_self c rest)
  have hstrip : ((natChars n).dropWhile isPyWS).reverse.dropWhile isPyWS =
      (natChars n).reverse := by
    have h1 : (natChars n).dropWhile isPyWS = natChars n := by
      rw [hcons, List.dropWhile_cons, hc.1]
      simp
    rw [h1]
    rcases List.exists_cons_of_ne_nil
      (by simpa using natChars_ne_nil n : (natChars n).reverse ≠ []) with ⟨c2, r2, h2⟩
    have hc2 := hplain c2 (List.mem_reverse.1 (h2 ▸ List.mem_cons_self c2 r2))
    rw [h2, List.dropWhile_cons, hc2.1]
    simp
  show pyIntParse ⟨natChars n⟩ = some n
  rw [pyIntParse]
  rw [show (⟨natChars n⟩ : String).data = natChars n from rfl]
  rw [pyTransformDecimal_ascii _
    (fun x hx => isAsciiDigit_lt_128 x (hplain x hx).2.2.2.2)]
  rw [Option.some_bind]
  rw [pyIntParseAscii]
  simp only [hstrip, List.reverse_reverse]
  rw [hcons]
  simp only
  rw [if_neg hc.2.1, if_neg hc.2.2.1, ← hcons, digitPartVal_natChars n]
  simp

/-- `chr(ord(c)) = c` and never raises. -/
theorem pyChr_toNat (c : Char) : pyChr (c.toNat : Int) = .ok c := by
  have hv : c.toNat < 0x110000 := by
    have e : c.toNat = c.val.toNat := rfl
    rcases c.valid with h | h <;> omega
  rw [pyChr, if_neg (by omega), if_neg (by omega)]
  simp

/-- Decoding the encoded tokens of a character list recovers it. -/
theorem decodeTokens_encoded (l : List Char) :
    decodeTokens (l.map (fun c => natChars c.toNat)) = .ok l := by
  induction l with
  | nil => rfl
  | cons c rest ih =>
      show decodeTokens (natChars c.toNat :: rest.map (fun c => natChars c.toNat)) =
        .ok (c :: rest)
      have hint : pyIntParse ⟨natChars c.toNat⟩ = some (c.toNat : Int) :=
        pyIntParse_pyNatStr c.toNat
      simp only [decodeTokens, hint, pyChr_toNat, ih]

/-- `takeWhile` stops exactly at the first failing element. -/
theorem takeWhile_append_stop (p : Char → Bool) :
    ∀ (t : List Char) (c : Char) (r : List Char), (∀ x ∈ t, p x = true) →
      p c = false → (t ++ c :: r).takeWhile p = t := by
  intro t
  induction t with
  | nil => intro c r _ hc; simp [List.takeWhile_cons, hc]
  | cons a t ih =>
      intro c r h hc
      simp [List.takeWhile_cons, h a (List.mem_cons_self a t),
        ih c r (fun x hx => h x (List.mem_cons_of_mem a hx)) hc]

/-- `dropWhile` drops exactly the initial satisfying run. -/
theorem dropWhile_append_stop (p : Char → Bool) :
    ∀ (t : List Char) (c : Char) (r : List Char), (∀ x ∈ t, p x = true) →
      p c = false → (t ++ c :: r).dropWhile p = c :: r := by
  intro t
  induction t with
  | nil => intro c r _ hc; simp [List.dropWhile_cons, hc]
  | cons a t ih =>
      intro c r h hc
      simp [List.dropWhile_cons, h a (List.mem_cons_self a t),
        ih c r (fun x hx => h x (List.mem_cons_of_mem a hx)) hc]

/-- `pyWordsAux` undoes `" ".join(tokens)` for nonempty whitespace-free
tokens, given sufficient fuel. -/
theorem pyWordsAux_joinTokens :
    ∀ (ws : List (List Char)) (fuel : Nat), (joinTokens ws).length < fuel →
      (∀ t ∈ ws, t ≠ [] ∧ ∀ c ∈ t, isPyWS c = false) →
      pyWordsAux fuel (joinTokens ws) = ws := by
  intro ws
  induction ws with
  | nil =>
      intro fuel hf _
      cases fuel with
      | zero => omega
      | succ f => rw [show joinTokens [] = [] from rfl, pyWordsAux]
  | cons t rest ih =>
      intro fuel hf h
      obtain ⟨hne, hplain⟩ := h t (List.mem_cons_self t rest)
      obtain ⟨c, cs, rfl⟩ := List.exists_cons_of_ne_nil hne
      have hc : isPyWS c = false := hplain c (List.mem_cons_self c cs)
      have hcs : ∀ x ∈ cs, (fun x => !isPyWS x) x = true := by
        intro x hx
        simp [hplain x (List.mem_cons_of_mem c hx)]
      cases rest with
      | nil =>
          rw [show joinTokens [c :: cs] = c :: cs by simp [joinTokens]] at hf ⊢
          simp only [List.length_cons] at hf
          cases fuel with
          | zero => omega
          | succ f =>
              rw [pyWordsAux]
              rw [if_neg (by simp [hc])]
              rw [List.takeWhile_eq_self_iff.2 hcs]
              rw [List.dropWhile_eq_nil_iff.2 (fun x hx => by simp [hcs x hx])]
              cases f with
              | zero => omega
              | succ f2 => rw [pyWordsAux]
      | cons t2 rest2 =>
          rw [show joinTokens ((c :: cs) :: t2 :: rest2) =
            (c :: cs) ++ ' ' :: joinTokens (t2 :: rest2) by simp [joinTokens]] at hf ⊢
          simp only [List.cons_append, List.length_append, List.length_cons] at hf ⊢
          cases fuel with
          | zero => omega
          | succ f =>
              rw [pyWordsAux]
              rw [if_neg (by simp [hc])]
              rw [takeWhile_append_stop _ cs ' ' _ hcs (by decide)]
              rw [dropWhile_append_stop _ cs ' ' _ hcs (by decide)]
              cases f with
              | zero => omega
              | succ f2 =>
                  rw [pyWordsAux]
                  rw [if_pos (by decide)]
                  rw [ih f2 (by omega) (fun x hx => h x (List.mem_cons_of_mem _ hx))]

/-- `s.split()` undoes `" ".join(tokens)` for nonempty whitespace-free
tokens. -/
theorem pyWords_joinTokens (ws : List (List Char))
    (h : ∀ t ∈ ws, t ≠ [] ∧ ∀ c ∈ t, isPyWS c = false) :
    pyWords (joinTokens ws) = ws := by
  rw [pyWords]
  exact pyWordsAux_joinTokens ws _ (Nat.lt_succ_self _) h

/-- The core round-trip: splitting and decoding the encoding of `s`
recovers the characters of `s`. -/
theorem decodeTokens_pyWords_encode (s : String) :
    decodeTokens (pyWords (encode_text s).data) = .ok s.data := by
  show decodeTokens (pyWords (joinTokens (s.data.map fun c => natChars c.toNat))) = _
  rw [pyWords_joinTokens]
  · exact decodeTokens_encoded s.data
  · intro t ht
    obtain ⟨c, _, rfl⟩ := List.mem_map.1 ht
    exact ⟨natChars_ne_nil _, fun x hx => (natChars_plain _ x hx).1⟩

theorem encode_text_empty_iff (s : String) : encode_text s = "" ↔ s = "" := by
  constructor
  · intro h
    cases s with
    | mk d =>
        cases d with
        | nil => rfl
        | cons c cs =>
            exfalso
            have hd : joinTokens ((c :: cs).map fun x => natChars x.toNat) = [] :=
              congrArg String.data h
            rw [List.map_cons] at hd
            cases hmap : cs.map (fun c => natChars c.toNat) with
            | nil =>
                rw [hmap] at hd
                rw [show joinTokens [natChars c.toNat] = natChars c.toNat
                  by simp [joinTokens]] at hd
                exact natChars_ne_nil c.toNat hd
            | cons t2 r2 =>
                rw [hmap] at hd
                rw [show joinTokens (natChars c.toNat :: t2 :: r2) =
                  natChars c.toNat ++ ' ' :: joinTokens (t2 :: r2)
                  by simp [joinTokens]] at hd
                exact natChars_ne_nil c.toNat (List.append_eq_nil.1 hd).1
  · intro h; rw [h]; rfl

/-- **C4.** `decode_text(encode_text(s)) == s` for every string `s`,
including the empty string. -/
theorem decode_encode_text (s : String) : decode_text (encode_text s) = .ok s := by
  by_cases hs : s = ""
  · rw [hs]; rfl
  · rw [decode_text, if_neg (fun h => hs ((encode_text_empty_iff s).1 h))]
    rw [decodeTokens_pyWords_encode]
    simp [Except.map]

/-- `maybe_decode_text` also inverts `encode_text` (needed by the structural
decoder, which always goes through the permissive variant). -/
theorem maybe_decode_encode_text (s : String) :
    maybe_decode_text (encode_text s) = .ok s := by
  by_cases hs : s = ""
  · rw [hs]; rfl
  · rw [maybe_decode_text, if_neg (fun h => hs ((encode_text_empty_iff s).1 h))]
    rw [decodeTokens_pyWords_encode]

/-! ## An exact model of IEEE-754 binary64 arithmetic

A Python `float` is modelled by its exact rational value.  `toDouble`
rounds an exact rational to 53 significant bits with round-half-to-even,
which is precisely what binary64 arithmetic does to every exact result in
the normal range.  Exponent overflow/underflow and subnormals (relevant
only beyond ±1.8e308 / below 2.2e-308) are not modelled; every quantity in
this development is far inside the normal range. -/

/-! ### Kernel-computable rational primitives

The field operations on `Rat` are `@[irreducible]`, so the embedded
functions are built from `Rat.divInt` and the `num`/`den` projections,
which the kernel can evaluate; each is proved equal to the corresponding
field operation. -/

/-- `-a`, computably. -/
def qneg (a : ℚ) : ℚ := Rat.divInt (-a.num) a.den

/-- `|a|`, computably. -/
def qabs (a : ℚ) : ℚ := Rat.divInt |a.num| a.den

/-- `a + b`, computably. -/
def qadd (a b : ℚ) : ℚ := Rat.divInt (a.num * b.den + b.num * a.den) (a.den * b.den)

/-- `a - b`, computably. -/
def qsub (a b : ℚ) : ℚ := Rat.divInt (a.num * b.den - b.num * a.den) (a.den * b.den)

/-- `a * b`, computably. -/
def qmul (a b : ℚ) : ℚ := Rat.divInt (a.num * b.num) (a.den * b.den)

/-- `a / b`, computably (`0` when `b = 0`, as in Mathlib). -/
def qdiv (a b : ℚ) : ℚ := Rat.divInt (a.num * b.den) (a.den * b.num)

/-- `b ^ e` for a natural base and integer exponent, computably. -/
def qpowB (b : ℕ) (e : ℤ) : ℚ :=
  if 0 ≤ e then Rat.divInt ((b : ℤ) ^ e.toNat) 1 else Rat.divInt 1 ((b : ℤ) ^ (-e).toNat)

/-- `2 ^ e`, computably. -/
def qpow2 (e : ℤ) : ℚ := qpowB 2 e

/-- `10 ^ e`, computably. -/
def qpow10 (e : ℤ) : ℚ := qpowB 10 e

theorem divInt_one_eq (m : ℤ) : Rat.divInt m 1 = (m : ℚ) := by
  rw [Rat.divInt_eq_div]
  push_cast
  exact div_one _

theorem den_cast_ne (a : ℚ) : ((a.den : ℚ)) ≠ 0 := by
  exact_mod_cast a.den_nz

theorem qneg_eq (a : ℚ) : qneg a = -a := by
  rw [qneg, Rat.divInt_eq_div]
  push_cast
  rw [neg_div, Rat.num_div_den]

theorem qabs_eq (a : ℚ) : qabs a = |a| := by
  rw [qabs, Rat.divInt_eq_div]
  push_cast
  conv_rhs => rw [← Rat.num_div_den a]
  rw [abs_div, abs_of_pos (show (0 : ℚ) < (a.den : ℚ) by exact_mod_cast a.den_pos)]

theorem qadd_eq (a b : ℚ) : qadd a b = a + b := by
  rw [qadd, Rat.divInt_eq_div]
  push_cast
  conv_rhs => rw [← Rat.num_div_den a, ← Rat.num_div_den b]
  rw [div_add_div _ _ (den_cast_ne a) (den_cast_ne b)]
  ring_nf

theorem qsub_eq (a b : ℚ) : qsub a b = a - b := by
  rw [qsub, Rat.divInt_eq_div]
  push_cast
  conv_rhs => rw [← Rat.num_div_den a, ← Rat.num_div_den b]
  rw [div_sub_div _ _ (den_cast_ne a) (den_cast_ne b)]
  ring_nf

theorem qmul_eq (a b : ℚ) : qmul a b = a * b := by
  rw [qmul, Rat.divInt_eq_div]
  push_cast
  conv_rhs => rw [← Rat.num_div_den a, ← Rat.num_div_den b]
  rw [div_mul_div_comm]

theorem qdiv_eq (a b : ℚ) : qdiv a b = a / b := by
  rw [qdiv, Rat.divInt_eq_div]
  by_cases hb : b = 0
  · subst hb
    simp
  · have hbnum : (b.num : ℚ) ≠ 0 := by
      simpa using Rat.num_ne_zero.2 hb
    have hda := den_cast_ne a
    have hdb := den_cast_ne b
    push_cast
    conv_rhs => rw [← Rat.num_div_den a, ← Rat.num_div_den b]
    field_simp

theorem qpowB_eq (b : ℕ) (e : ℤ) : qpowB b e = ((b : ℚ)) ^ e := by
  rw [qpowB]
  split_ifs with h
  · rw [Rat.divInt_eq_div]
    push_cast
    rw [div_one, ← zpow_natCast, Int.toNat_of_nonneg h]
  · push_neg at h
    rw [Rat.divInt_eq_div]
    push_cast
    rw [one_div, ← zpow_natCast, Int.toNat_of_nonneg (by omega), ← zpow_neg, neg_neg]

theorem qpow2_eq (e : ℤ) : qpow2 e = (2 : ℚ) ^ e := by
  rw [qpow2, qpowB_eq]
  norm_num

theorem qpow10_eq (e : ℤ) : qpow10 e = (10 : ℚ) ^ e := by
  rw [qpow10, qpowB_eq]
  norm_num

/-- Round a rational to the nearest integer, ties to even. -/
def rheInt (x : ℚ) : ℤ :=
  let f := ⌊x⌋
  let r := qsub x (Rat.divInt f 1)
  if r < Rat.divInt 1 2 then f
  else if Rat.divInt 1 2 < r then f + 1
  else if f % 2 = 0 then f else f + 1

theorem rheInt_def' (x : ℚ) : rheInt x =
    (if x - (⌊x⌋ : ℚ) < 1 / 2 then ⌊x⌋
     else if 1 / 2 < x - (⌊x⌋ : ℚ) then ⌊x⌋ + 1
     else if ⌊x⌋ % 2 = 0 then ⌊x⌋ else ⌊x⌋ + 1) := by
  rw [rheInt]
  rw [show Rat.divInt (1 : ℤ) 2 = (1 : ℚ) / 2 by rw [Rat.divInt_eq_div]; norm_num]
  simp only [qsub_eq, divInt_one_eq]

/-- Base-2 logarithm of a natural number with explicit fuel
(`fuel ≥ n` suffices). -/
def natLog2Aux : Nat → Nat → Nat
  | 0, _ => 0
  | fuel + 1, n => if 2 ≤ n then natLog2Aux fuel (n / 2) + 1 else 0

/-- `⌊log₂ n⌋` (0 for `n = 0`), computably. -/
def natLog2 (n : Nat) : Nat := natLog2Aux n n

theorem natLog2Aux_eq_log :
    ∀ (fuel n : Nat), n ≤ fuel → natLog2Aux fuel n = Nat.log 2 n := by
  intro fuel
  induction fuel with
  | zero =>
      intro n h
      have : n = 0 := by omega
      subst this
      simp [natLog2Aux]
  | succ f ih =>
      intro n h
      rw [natLog2Aux]
      split_ifs with h2
      · rw [ih (n / 2) (by omega)]
        rw [Nat.log_div_base]
        have hpos : 0 < Nat.log 2 n := Nat.log_pos (by norm_num) h2
        omega
      · symm
        exact Nat.log_eq_zero_iff.2 (Or.inl (by omega))

theorem natLog2_eq (n : Nat) : natLog2 n = Nat.log 2 n :=
  natLog2Aux_eq_log n n le_rfl

/-- `⌊log₂ q⌋` for a positive rational. -/
def ratLog2 (q : ℚ) : ℤ :=
  if qpow2 ((natLog2 q.num.natAbs : ℤ) - (natLog2 q.den : ℤ)) ≤ q
  then (natLog2 q.num.natAbs : ℤ) - (natLog2 q.den : ℤ)
  else (natLog2 q.num.natAbs : ℤ) - (natLog2 q.den : ℤ) - 1

/-- Round an exact rational to the nearest binary64 value (unbounded
exponent range). -/
def toDouble (x : ℚ) : ℚ :=
  if x = 0 then 0
  else if x < 0 then
    qneg (qmul (Rat.divInt (rheInt (qmul (qabs x) (qpow2 (-(ratLog2 (qabs x) - 52))))) 1)
      (qpow2 (ratLog2 (qabs x) - 52)))
  else
    qmul (Rat.divInt (rheInt (qmul (qabs x) (qpow2 (-(ratLog2 (qabs x) - 52))))) 1)
      (qpow2 (ratLog2 (qabs x) - 52))

theorem toDouble_def' (x : ℚ) : toDouble x =
    if x = 0 then 0
    else (if x < 0 then (-1 : ℚ) else 1) *
      (rheInt (|x| / 2 ^ (ratLog2 |x| - 52)) : ℚ) * 2 ^ (ratLog2 |x| - 52) := by
  rw [toDouble]
  by_cases h0 : x = 0
  · simp [h0]
  · rw [if_neg h0, if_neg h0]
    have harg : qmul (qabs x) (qpow2 (-(ratLog2 (qabs x) - 52))) =
        |x| / 2 ^ (ratLog2 |x| - 52) := by
      rw [qmul_eq, qpow2_eq, qabs_eq, zpow_neg, div_eq_mul_inv]
    rw [harg]
    split_ifs with hneg
    · rw [qneg_eq, qmul_eq, divInt_one_eq, qpow2_eq, qabs_eq]
      ring
    · rw [qmul_eq, divInt_one_eq, qpow2_eq, qabs_eq]
      ring

/-- Binary64 addition: round the exact sum. -/
def fadd (a b : ℚ) : ℚ := toDouble (qadd a b)

/-- Binary64 subtraction: round the exact difference. -/
def fsub (a b : ℚ) : ℚ := toDouble (qsub a b)

/-- Binary64 multiplication: round the exact product. -/
def fmul (a b : ℚ) : ℚ := toDouble (qmul a b)

/-- Binary64 division: round the exact quotient. -/
def fdiv (a b : ℚ) : ℚ := toDouble (qdiv a b)

theorem fadd_eq (a b : ℚ) : fadd a b = toDouble (a + b) := by rw [fadd, qadd_eq]

theorem fsub_eq (a b : ℚ) : fsub a b = toDouble (a - b) := by rw [fsub, qsub_eq]

theorem fmul_eq (a b : ℚ) : fmul a b = toDouble (a * b) := by rw [fmul, qmul_eq]

theorem fdiv_eq (a b : ℚ) : fdiv a b = toDouble (a / b) := by rw [fdiv, qdiv_eq]

/-- Python `sum` over float values (left fold starting at `0`). -/
def fsum (l : List ℚ) : ℚ := l.foldl fadd 0

/-- The integer `round(x * 10^k)`, ties to even. -/
def decScaled (q : ℚ) (k : ℕ) : ℤ := rheInt (qmul q (Rat.divInt ((10 : ℤ) ^ k) 1))

/-- The decimal with `k` fraction digits nearest to `q`, as a rational. -/
def decApprox (q : ℚ) (k : ℕ) : ℚ := Rat.divInt (decScaled q k) ((10 : ℤ) ^ k)

theorem decScaled_eq (q : ℚ) (k : ℕ) : decScaled q k = rheInt (q * 10 ^ k) := by
  rw [decScaled, qmul_eq, divInt_one_eq]
  norm_num

theorem decApprox_eq (q : ℚ) (k : ℕ) :
    decApprox q k = (rheInt (q * 10 ^ k) : ℚ) / 10 ^ k := by
  rw [decApprox, decScaled_eq, Rat.divInt_eq_div]
  norm_num

/-- Python `round(x, 2)` on a float: correctly round the exact value to two
decimal places (ties to even), then to the nearest double. -/
def pyRound2 (x : ℚ) : ℚ := toDouble (decApprox x 2)

theorem pyRound2_eq (x : ℚ) : pyRound2 x = toDouble ((rheInt (x * 100) : ℚ) / 100) := by
  rw [pyRound2, decApprox_eq]
  norm_num

/-- The double nearest to a decimal literal, e.g. `pyFloat (1/100)` is the
value of the Python literal `0.01`. -/
def pyFloat (q : ℚ) : ℚ := toDouble q

/-! ### Basic properties of `toDouble` -/

theorem rheInt_near (x : ℚ) : |(rheInt x : ℚ) - x| ≤ 1 / 2 := by
  rw [rheInt_def']
  have h0 : (⌊x⌋ : ℚ) ≤ x := Int.floor_le x
  have h1 : x < (⌊x⌋ : ℚ) + 1 := Int.lt_floor_add_one x
  split_ifs with hlt hgt hev
  · rw [abs_le]; constructor <;> push_cast <;> linarith
  · rw [abs_le]; constructor <;> push_cast <;> linarith
  · rw [abs_le]; constructor <;> push_cast <;> linarith
  · rw [abs_le]; constructor <;> push_cast <;> linarith

/-- If `x` is within half a unit of an integer `m` (strictly), it rounds
to `m`. -/
theorem rheInt_eq_of_near (x : ℚ) (m : ℤ) (h : |x - m| < 1 / 2) : rheInt x = m := by
  rw [abs_lt] at h
  rw [rheInt_def']
  rcases le_or_lt (m : ℚ) x with hmx | hmx
  · have hf : ⌊x⌋ = m := by
      rw [Int.floor_eq_iff]
      exact ⟨hmx, by push_cast; linarith [h.2]⟩
    simp only [hf]
    rw [if_pos (by push_cast; linarith [h.2])]
  · have hf : ⌊x⌋ = m - 1 := by
      rw [Int.floor_eq_iff]
      constructor
      · push_cast; linarith [h.1]
      · push_cast; linarith
    simp only [hf]
    rw [if_neg (by push_cast; linarith [h.1]), if_pos (by push_cast; linarith [h.1])]
    omega

theorem rheInt_intCast (m : ℤ) : rheInt (m : ℚ) = m :=
  rheInt_eq_of_near _ m (by simp)

theorem ratLog2_spec (q : ℚ) (hq : 0 < q) :
    (2 : ℚ) ^ ratLog2 q ≤ q ∧ q < 2 ^ (ratLog2 q + 1) := by
  have hn : 0 < q.num := Rat.num_pos.2 hq
  set a := Nat.log 2 q.num.natAbs with ha
  set b := Nat.log 2 q.den with hb
  have hna : q.num.natAbs ≠ 0 := by omega
  have hda : q.den ≠ 0 := q.den_nz
  have h1 : (2 : ℕ) ^ a ≤ q.num.natAbs := Nat.pow_log_le_self 2 hna
  have h2 : q.num.natAbs < 2 ^ (a + 1) := Nat.lt_pow_succ_log_self (by norm_num) _
  have h3 : (2 : ℕ) ^ b ≤ q.den := Nat.pow_log_le_self 2 hda
  have h4 : q.den < 2 ^ (b + 1) := Nat.lt_pow_succ_log_self (by norm_num) _
  have hqeq : q = (q.num : ℚ) / (q.den : ℚ) := (Rat.num_div_den q).symm
  have hnum_eq : ((q.num.natAbs : ℕ) : ℚ) = (q.num : ℚ) := by
    rw [Int.cast_natAbs]
    exact_mod_cast abs_of_nonneg hn.le
  have hnum1 : (2 : ℚ) ^ a ≤ (q.num : ℚ) := by
    rw [← hnum_eq]; exact_mod_cast h1
  have hnum2 : (q.num : ℚ) < 2 ^ (a + 1) := by
    rw [← hnum_eq]; exact_mod_cast h2
  have hden1 : (2 : ℚ) ^ b ≤ (q.den : ℚ) := by exact_mod_cast h3
  have hden2 : ((q.den : ℚ)) < 2 ^ (b + 1) := by exact_mod_cast h4
  have hdpos : (0 : ℚ) < (q.den : ℚ) := by exact_mod_cast q.den_pos
  have hnpos : (0 : ℚ) < (q.num : ℚ) := by exact_mod_cast hn
  have hlow : (2 : ℚ) ^ ((a : ℤ) - (b : ℤ) - 1) < q := by
    have hsplit : (2 : ℚ) ^ ((a : ℤ) - (b : ℤ) - 1) =
        (2 : ℚ) ^ (a : ℤ) / (2 : ℚ) ^ ((b : ℤ) + 1) := by
      rw [← zpow_sub₀ (by norm_num : (2 : ℚ) ≠ 0)]; ring_nf
    rw [hsplit, hqeq, div_lt_div_iff (by positivity) hdpos]
    have e1 : (2 : ℚ) ^ (a : ℤ) = (2 : ℚ) ^ a := zpow_natCast 2 a
    have e2 : (2 : ℚ) ^ ((b : ℤ) + 1) = (2 : ℚ) ^ (b + 1) := by
      rw [show ((b : ℤ) + 1) = ((b + 1 : ℕ) : ℤ) by push_cast; ring, zpow_natCast]
    rw [e1, e2]
    calc (2 : ℚ) ^ a * (q.den : ℚ) ≤ (q.num : ℚ) * (q.den : ℚ) :=
          mul_le_mul_of_nonneg_right hnum1 hdpos.le
      _ < (q.num : ℚ) * (2 : ℚ) ^ (b + 1) := mul_lt_mul_of_pos_left hden2 hnpos
  have hhigh : q < (2 : ℚ) ^ ((a : ℤ) - (b : ℤ) + 1) := by
    have hsplit : (2 : ℚ) ^ ((a : ℤ) - (b : ℤ) + 1) =
        (2 : ℚ) ^ ((a : ℤ) + 1) / (2 : ℚ) ^ (b : ℤ) := by
      rw [← zpow_sub₀ (by norm_num : (2 : ℚ) ≠ 0)]; ring_nf
    rw [hsplit, hqeq, div_lt_div_iff hdpos (by positivity)]
    have e1 : (2 : ℚ) ^ ((a : ℤ) + 1) = (2 : ℚ) ^ (a + 1) := by
      rw [show ((a : ℤ) + 1) = ((a + 1 : ℕ) : ℤ) by push_cast; ring, zpow_natCast]
    have e2 : (2 : ℚ) ^ (b : ℤ) = (2 : ℚ) ^ b := zpow_natCast 2 b
    rw [e1, e2]
    calc (q.num : ℚ) * (2 : ℚ) ^ b ≤ (q.num : ℚ) * (q.den : ℚ) :=
          mul_le_mul_of_nonneg_left hden1 hnpos.le
      _ < (2 : ℚ) ^ (a + 1) * (q.den : ℚ) := mul_lt_mul_of_pos_right hnum2 hdpos
  rw [ratLog2]
  simp only [natLog2_eq, qpow2_eq, ← ha, ← hb]
  split_ifs with hle
  · exact ⟨hle, hhigh⟩
  · push_neg at hle
    refine ⟨le_of_lt hlow, ?_⟩
    rw [show ((a : ℤ) - (b : ℤ) - 1 + 1) = ((a : ℤ) - b) by ring]
    exact hle

/-- Relative error bound of rounding to binary64. -/
theorem toDouble_err (x : ℚ) (hx : x ≠ 0) : |toDouble x - x| ≤ |x| / 2 ^ 52 := by
  rw [toDouble_def', if_neg hx]
  have habs : 0 < |x| := abs_pos.2 hx
  obtain ⟨hlo, _⟩ := ratLog2_spec |x| habs
  set e : ℤ := ratLog2 |x| - 52 with he
  have hpow : (0 : ℚ) < 2 ^ e := by positivity
  have herr : abs ((rheInt (abs x / 2 ^ e) : ℚ) - abs x / 2 ^ e) ≤ 1 / 2 := rheInt_near _
  have key : ∀ s : ℚ, s = -1 ∨ s = 1 →
      abs (s * (rheInt (abs x / 2 ^ e) : ℚ) * 2 ^ e - s * abs x) ≤ 2 ^ e / 2 := by
    intro s hs
    have hre : s * (rheInt (abs x / 2 ^ e) : ℚ) * 2 ^ e - s * abs x =
        s * (((rheInt (abs x / 2 ^ e) : ℚ) - abs x / 2 ^ e) * 2 ^ e) := by
      field_simp
      ring
    rw [hre, abs_mul]
    have hsabs : abs s = 1 := by rcases hs with h | h <;> simp [h]
    rw [hsabs, one_mul, abs_mul, abs_of_pos hpow]
    calc abs ((rheInt (abs x / 2 ^ e) : ℚ) - abs x / 2 ^ e) * 2 ^ e ≤ (1 / 2) * 2 ^ e :=
          mul_le_mul_of_nonneg_right herr hpow.le
      _ = 2 ^ e / 2 := by ring
  have hfin : 2 ^ e / 2 ≤ |x| / 2 ^ 52 := by
    have h2e : (2 : ℚ) ^ e = 2 ^ ratLog2 |x| / 2 ^ (52 : ℤ) := by
      rw [he, ← zpow_sub₀ (by norm_num : (2 : ℚ) ≠ 0)]
    have h52 : ((2 : ℚ) ^ (52 : ℤ)) = 2 ^ (52 : ℕ) := by norm_num
    rw [h2e, h52]
    rw [div_div, div_le_div_iff (by positivity) (by positivity)]
    calc (2 : ℚ) ^ ratLog2 |x| * 2 ^ (52 : ℕ) ≤ |x| * 2 ^ (52 : ℕ) :=
          mul_le_mul_of_nonneg_right hlo (by positivity)
      _ ≤ |x| * (2 ^ (52 : ℕ) * 2) := by
          rw [← mul_assoc]
          exact le_mul_of_one_le_right (by positivity) (by norm_num)
  split_ifs with hneg
  · have hk := key (-1) (Or.inl rfl)
    rw [show (-1 : ℚ) * abs x = x by rw [abs_of_neg hneg]; ring] at hk
    exact le_trans hk hfin
  · push_neg at hneg
    have hk := key 1 (Or.inr rfl)
    rw [show (1 : ℚ) * abs x = x by rw [abs_of_nonneg hneg]; ring] at hk
    exact le_trans hk hfin

/-! ## Python float ↔ string conversions

`str(float)` prints the shortest decimal string that parses back to the
same double; `float(str)` parses a decimal literal and rounds it to the
nearest double.  Both are modelled here for positional (non-scientific)
notation, which covers every finite value appearing in this development
(Python switches to scientific notation only at `|x| ≥ 1e16` or
`|x| < 1e-4`, and `inf`/`nan` forms contain no digits). -/

/-- Membership test `c in s` on Python strings. -/
def pyIn (c : Char) (s : String) : Bool := s.data.contains c

/-- Python `s.isdigit()`: nonempty and every character has Unicode
`Numeric_Type` of `Decimal` or `Digit` (see `pyIsDigitCode`).  Note this is
wider than the digits `int()` accepts: `"²".isdigit()` is true yet
`int("²")` raises `ValueError`. -/
def pyIsDigit (s : String) : Bool :=
  !s.data.isEmpty && s.data.all (fun c => pyIsDigitCode c.toNat)

/-- The character list of the decimal `j / 10^k` written with a sign, an
integer part and exactly `k` fraction digits. -/
def renderDec (j : Int) (k : Nat) : List Char :=
  (if j < 0 then ['-'] else []) ++ natChars (j.natAbs / 10 ^ k) ++
    '.' :: (List.replicate (k - (natChars (j.natAbs % 10 ^ k)).length) '0' ++
      natChars (j.natAbs % 10 ^ k))

/-- The number of fraction digits `str` uses for the double `q`: the least
`k ∈ [1, 17]` whose nearest `k`-digit decimal reparses to exactly `q`. -/
def strK (q : ℚ) : Nat :=
  (((List.range' 1 17).find? (fun k => decide (toDouble (decApprox q k) = q))).getD 17)

/-- Python `str(x)` for a double `x`: the decimal with the fewest fraction
digits (at least one) that still parses back to exactly `x`. -/
def pyFloatStr (q : ℚ) : String :=
  ⟨renderDec (decScaled q (strK q)) (strK q)⟩

/-- Split a character list at the first `'e'`/`'E'`, if any. -/
def splitOnE (cs : List Char) : List Char × Option (List Char) :=
  match cs.findIdx? (fun c => c = 'e' || c = 'E') with
  | none => (cs, none)
  | some i => (cs.take i, some (cs.drop (i + 1)))

/-- Split a character list at the first `'.'`, if any. -/
def splitOnDot (cs : List Char) : List Char × Option (List Char) :=
  match cs.findIdx? (fun c => c = '.') with
  | none => (cs, none)
  | some i => (cs.take i, some (cs.drop (i + 1)))

/-- Detach an optional leading sign, returning the sign as a rational. -/
def stripSign (cs : List Char) : ℚ × List Char :=
  match cs with
  | [] => (1, [])
  | c :: rest =>
      if c = '-' then (-1, rest)
      else if c = '+' then (1, rest)
      else (1, c :: rest)

/-- Parse an optionally-signed exponent `digitpart`. -/
def parseExp (cs : List Char) : Option Int :=
  match cs with
  | [] => none
  | c :: rest =>
      if c = '-' then (digitPartVal rest).map (fun p => -(p.1 : Int))
      else if c = '+' then (digitPartVal rest).map (fun p => (p.1 : Int))
      else (digitPartVal (c :: rest)).map (fun p => (p.1 : Int))

/-- Python `str.strip()` (whitespace only). -/
def pyStripWS (cs : List Char) : List Char :=
  ((cs.dropWhile isPyWS).reverse.dropWhile isPyWS).reverse

/-- The body of `float()` after whitespace stripping. -/
def pyFloatParseCore (cs0 : List Char) : Option ℚ :=
  let sgn : ℚ := (stripSign cs0).1
  let cs := (stripSign cs0).2
  let mant := (splitOnE cs).1
  let expPart := (splitOnE cs).2
  let ip := (splitOnDot mant).1
  let fpOpt := (splitOnDot mant).2
  let intPart : Option (Nat × Nat) := if ip = [] then some (0, 0) else digitPartVal ip
  let fracPart : Option (Nat × Nat) :=
    match fpOpt with
    | none => some (0, 0)
    | some fp => if fp = [] then some (0, 0) else digitPartVal fp
  let expVal : Option Int :=
    match expPart with
    | none => some 0
    | some ecs => parseExp ecs
  intPart.bind fun ipv =>
    fracPart.bind fun fpv =>
      expVal.bind fun ev =>
        if ipv.2 + fpv.2 = 0 then none
        else some (toDouble (qmul (qmul sgn
          (qadd (Rat.divInt (ipv.1 : ℤ) 1) (Rat.divInt (fpv.1 : ℤ) ((10 : ℤ) ^ fpv.2))))
          (qpow10 ev)))

/-- Python `float(s)` for finite decimal literals: the
decimal-and-space-to-ASCII transform, then optional surrounding whitespace,
optional sign, `digitpart? ('.' digitpart?)?` with at least one digit,
optional exponent; the exact decimal value is then rounded to the nearest
double.  (`inf`/`nan` spellings are not modelled: no string containing a
`'.'` matches them, and only such strings reach `float` in
`decode_structure`.) -/
def pyFloatParse (s : String) : Option ℚ :=
  (pyTransformDecimal s.data).bind (fun cs => pyFloatParseCore (pyStripWS cs))

/-! ## The structural encoder/decoder

Source: `encode_structure` / `decode_structure` (`Bondï_app.py` lines
184–222).  Python values reachable from the JSON database are modelled by
`PyVal`.  Note that in Python `bool` is a subclass of `int`, so
`isinstance(obj, (int, float))` is true for booleans: the numeric branch of
`encode_structure` catches them and encodes `str(True)`/`str(False)`. -/

inductive PyVal where
  | pstr (s : String)
  | pint (n : Int)
  | pfloat (q : ℚ)
  | pbool (b : Bool)
  | pnull
  | plist (l : List PyVal)
  | pdict (l : List (String × PyVal))

/-- `str(b)` for a Python boolean. -/
def pyBoolStr (b : Bool) : String := if b then "True" else "False"

mutual

/-- `encode_structure`: strings are encoded with `encode_text`; ints,
floats and booleans (via the `int` branch) are stringified first; lists
and dicts recurse over values, dict keys are untouched; `None` passes
through the final fallback unchanged. -/
def encode_structure : PyVal → PyVal
  | .pstr s => .pstr (encode_text s)
  | .pint n => .pstr (encode_text (pyIntStr n))
  | .pfloat q => .pstr (encode_text (pyFloatStr q))
  | .pbool b => .pstr (encode_text (pyBoolStr b))
  | .plist l => .plist (encodeValList l)
  | .pdict l => .pdict (encodePairList l)
  | .pnull => .pnull

/-- `[encode_structure(v) for v in obj]`. -/
def encodeValList : List PyVal → List PyVal
  | [] => []
  | v :: rest => encode_structure v :: encodeValList rest

/-- `{k: encode_structure(v) for k, v in obj.items()}`. -/
def encodePairList : List (String × PyVal) → List (String × PyVal)
  | [] => []
  | (k, v) :: rest => (k, encode_structure v) :: encodePairList rest

end

mutual

/-- `decode_structure`: a string leaf is passed through
`maybe_decode_text` (whose `OverflowError` propagates), then reinterpreted
as a float if it contains `'.'` and parses, as an int if it is all digits,
and kept as a string otherwise (`ValueError` from the conversions is
swallowed).  Lists and dicts recurse; other leaves pass through. -/
def decode_structure : PyVal → Except PyErr PyVal
  | .pstr s =>
      match maybe_decode_text s with
      | .error e => .error e
      | .ok decoded =>
          if pyIn '.' decoded then
            match pyFloatParse decoded with
            | some q => .ok (.pfloat q)
            | none => .ok (.pstr decoded)
          else if pyIsDigit decoded then
            match pyIntParse decoded with
            | some n => .ok (.pint n)
            | none => .ok (.pstr decoded)
          else .ok (.pstr decoded)
  | .pint n => .ok (.pint n)
  | .pfloat q => .ok (.pfloat q)
  | .pbool b => .ok (.pbool b)
  | .pnull => .ok .pnull
  | .plist l =>
      match decodeValList l with
      | .error e => .error e
      | .ok l2 => .ok (.plist l2)
  | .pdict l =>
      match decodePairList l with
      | .error e => .error e
      | .ok l2 => .ok (.pdict l2)

/-- `[decode_structure(v) for v in obj]` (first error aborts). -/
def decodeValList : List PyVal → Except PyErr (List PyVal)
  | [] => .ok []
  | v :: rest =>
      match decode_structure v with
      | .error e => .error e
      | .ok v2 =>
          match decodeValList rest with
          | .error e => .error e
          | .ok r2 => .ok (v2 :: r2)

/-- `{k: decode_structure(v) for k, v in obj.items()}` (first error
aborts). -/
def decodePairList : List (String × PyVal) → Except PyErr (List (String × PyVal))
  | [] => .ok []
  | (k, v) :: rest =>
      match decode_structure v with
      | .error e => .error e
      | .ok v2 =>
          match decodePairList rest with
          | .error e => .error e
          | .ok r2 => .ok ((k, v2) :: r2)

end

/-! ## Parsing the rendered decimal of a double -/

theorem isAsciiDigit_char_facts (c : Char) (h : isAsciiDigit c = true) :
    isPyWS c = false ∧ c ≠ '-' ∧ c ≠ '+' ∧ c ≠ '.' ∧
      (decide (c = 'e') || decide (c = 'E')) = false := by
  have hb : 48 ≤ c.toNat ∧ c.toNat ≤ 57 := by
    simpa [isAsciiDigit, Bool.and_eq_true, decide_eq_true_eq] using h
  have h1 : c ≠ ' ' := fun he => by subst he; revert hb; decide
  have h2 : c ≠ '\t' := fun he => by subst he; revert hb; decide
  have h3 : c ≠ '\n' := fun he => by subst he; revert hb; decide
  have h4 : c ≠ '\x0d' := fun he => by subst he; revert hb; decide
  have h5 : c ≠ '\x0b' := fun he => by subst he; revert hb; decide
  have h6 : c ≠ '\x0c' := fun he => by subst he; revert hb; decide
  refine ⟨by simp [isPyWS, h1, h2, h3, h4, h5, h6], ?_, ?_, ?_, ?_⟩
  · exact fun he => by subst he; revert hb; decide
  · exact fun he => by subst he; revert hb; decide
  · exact fun he => by subst he; revert hb; decide
  · have he : c ≠ 'e' := fun he => by subst he; revert hb; decide
    have hE : c ≠ 'E' := fun he => by subst he; revert hb; decide
    simp [he, hE]

/-- `dropWhile` is the identity when no element satisfies the predicate. -/
theorem dropWhile_eq_self_of_all (p : Char → Bool) :
    ∀ l : List Char, (∀ c ∈ l, p c = false) → l.dropWhile p = l := by
  intro l h
  cases l with
  | nil => rfl
  | cons c rest =>
      rw [List.dropWhile_cons, h c (List.mem_cons_self c rest)]
      simp

theorem findIdx?_none_of_all (p : Char → Bool) (l : List Char)
    (h : ∀ c ∈ l, p c = false) : l.findIdx? p = none :=
  List.findIdx?_eq_none_iff.2 h

/-- `findIdx?` finds the boundary marker after a clean prefix. -/
theorem findIdx?_prefix_marker (p : Char → Bool) (l : List Char) (c : Char)
    (r : List Char) (hl : ∀ x ∈ l, p x = false) (hc : p c = true) :
    (l ++ c :: r).findIdx? p = some l.length := by
  induction l with
  | nil => simp [hc]
  | cons a t ih =>
      have ha : p a = false := hl a (List.mem_cons_self a t)
      simp only [List.cons_append, List.findIdx?_cons, ha, Bool.false_eq_true, if_false,
        List.findIdx?_start_succ]
      rw [ih (fun x hx => hl x (List.mem_cons_of_mem a hx))]
      simp

/-- Splitting at the dot of `intpart ++ '.' :: fracpart`. -/
theorem splitOnDot_exact (l r : List Char) (hl : ∀ x ∈ l, x ≠ '.') :
    splitOnDot (l ++ '.' :: r) = (l, some r) := by
  rw [splitOnDot]
  rw [findIdx?_prefix_marker _ l '.' r (fun x hx => by simp [hl x hx]) (by simp)]
  simp only [Prod.mk.injEq, Option.some.injEq]
  refine ⟨List.take_left l _, ?_⟩
  rw [show l ++ '.' :: r = (l ++ ['.']) ++ r by simp]
  rw [show l.length + 1 = (l ++ ['.']).length by simp]
  rw [List.drop_left]

theorem splitOnE_none (cs : List Char)
    (h : ∀ x ∈ cs, (decide (x = 'e') || decide (x = 'E')) = false) :
    splitOnE cs = (cs, none) := by
  rw [splitOnE, findIdx?_none_of_all _ _ h]

theorem natDigitsLEAux_length_le :
    ∀ (fuel m k : Nat), m < fuel → 1 ≤ k → m < 10 ^ k →
      (natDigitsLEAux m fuel).length ≤ k := by
  intro fuel
  induction fuel with
  | zero => intro m k h; omega
  | succ f ih =>
      intro m k h hk hm
      rw [natDigitsLEAux]
      split
      · simpa using hk
      · next hge =>
          have hk2 : 2 ≤ k := by
            by_contra hlt
            interval_cases k
            omega
          have hdiv : m / 10 < 10 ^ (k - 1) := by
            rw [Nat.div_lt_iff_lt_mul (by omega)]
            calc m < 10 ^ k := hm
              _ = 10 ^ (k - 1) * 10 := by
                  rw [← pow_succ]
                  congr 1
                  omega
          have hrec := ih (m / 10) (k - 1) (by omega) (by omega) hdiv
          simp only [List.length_cons]
          omega

/-- Decimal digit-count bound: `m < 10^k` has at most `k` digits. -/
theorem natChars_length_le (m k : Nat) (hk : 1 ≤ k) (hm : m < 10 ^ k) :
    (natChars m).length ≤ k := by
  rw [natChars, List.length_reverse]
  exact natDigitsLEAux_length_le (m + 1) m k (Nat.lt_succ_self m) hk hm

theorem foldl_digitStep_replicate_zero (z : Nat) :
    ∀ a : Nat, a = 0 → (List.replicate z '0').foldl digitStep a = 0 := by
  induction z with
  | zero => intro a ha; simpa using ha
  | succ n ih =>
      intro a ha
      rw [List.replicate_succ, List.foldl_cons]
      exact ih _ (by rw [ha]; rfl)

/-- Parsing the `k`-fraction-digit rendering of `j / 10^k` recovers the
nearest double to that decimal. -/
theorem pyFloatParse_renderDec (j : ℤ) (k : Nat) (hk : 1 ≤ k) :
    pyFloatParse ⟨renderDec j k⟩ = some (toDouble ((j : ℚ) / 10 ^ k)) := by
  set iv := j.natAbs / 10 ^ k with hiv
  set fv := j.natAbs % 10 ^ k with hfv
  set z := k - (natChars fv).length with hz
  set I := natChars iv with hI
  set F := List.replicate z '0' ++ natChars fv with hF
  have hIdig : ∀ c ∈ I, isAsciiDigit c = true := natChars_all_digits iv
  have hFdig : ∀ c ∈ F, isAsciiDigit c = true := by
    intro c hc
    rcases List.mem_append.1 hc with hc | hc
    · rw [List.eq_of_mem_replicate hc]; decide
    · exact natChars_all_digits fv c hc
  have hIne : I ≠ [] := natChars_ne_nil iv
  have hFne : F ≠ [] := by
    intro hcon
    exact natChars_ne_nil fv (List.append_eq_nil.1 hcon).2
  have hrd : renderDec j k = (if j < 0 then ['-'] else []) ++ I ++ '.' :: F := rfl
  have hall : ∀ c ∈ renderDec j k, isPyWS c = false := by
    intro c hc
    rw [hrd] at hc
    rcases List.mem_append.1 hc with hc | hc
    · rcases List.mem_append.1 hc with hc | hc
      · split at hc
        · rw [List.mem_singleton.1 hc]; decide
        · simp at hc
      · exact (isAsciiDigit_char_facts c (hIdig c hc)).1
    · rcases List.mem_cons.1 hc with rfl | hc
      · decide
      · exact (isAsciiDigit_char_facts c (hFdig c hc)).1
  have hstrip : pyStripWS (renderDec j k) = renderDec j k := by
    rw [pyStripWS, dropWhile_eq_self_of_all _ _ hall,
      dropWhile_eq_self_of_all _ _ (fun c hc => hall c (List.mem_reverse.1 hc)),
      List.reverse_reverse]
  have hascii : ∀ c ∈ renderDec j k, c.toNat < 128 := by
    intro c hc
    rw [hrd] at hc
    rcases List.mem_append.1 hc with hc | hc
    · rcases List.mem_append.1 hc with hc | hc
      · split at hc
        · rw [List.mem_singleton.1 hc]; decide
        · simp at hc
      · exact isAsciiDigit_lt_128 c (hIdig c hc)
    · rcases List.mem_cons.1 hc with rfl | hc
      · decide
      · exact isAsciiDigit_lt_128 c (hFdig c hc)
  have hnoE : splitOnE (I ++ '.' :: F) = (I ++ '.' :: F, none) := by
    apply splitOnE_none
    intro x hx
    rcases List.mem_append.1 hx with hx | hx
    · exact (isAsciiDigit_char_facts x (hIdig x hx)).2.2.2.2
    · rcases List.mem_cons.1 hx with rfl | hx
      · decide
      · exact (isAsciiDigit_char_facts x (hFdig x hx)).2.2.2.2
  have hdot : splitOnDot (I ++ '.' :: F) = (I, some F) :=
    splitOnDot_exact I F (fun x hx => (isAsciiDigit_char_facts x (hIdig x hx)).2.2.2.1)
  have hIval : digitPartVal I = some (iv, I.length) := digitPartVal_natChars iv
  have hlen : (natChars fv).length ≤ k :=
    natChars_length_le fv k hk (by rw [hfv]; exact Nat.mod_lt _ (by positivity))
  have hFval : digitPartVal F = some (fv, k) := by
    rw [digitPartVal_all_digits F hFne hFdig]
    rw [hF, List.foldl_append, foldl_digitStep_replicate_zero z 0 rfl, foldl_natChars]
    rw [List.length_append, List.length_replicate]
    rw [hz]
    congr 2
    omega
  have hIlen : 1 ≤ I.length := by
    rcases List.exists_cons_of_ne_nil hIne with ⟨c, t, hc⟩
    rw [hc]
    simp
  have hvalue : ((iv : ℚ) + (fv : ℚ) / 10 ^ k) = (j.natAbs : ℚ) / 10 ^ k := by
    have hdm : 10 ^ k * iv + fv = j.natAbs := Nat.div_add_mod _ _
    have hcast : ((10 : ℚ) ^ k * (iv : ℚ) + (fv : ℚ)) = (j.natAbs : ℚ) := by
      exact_mod_cast congrArg (Nat.cast : Nat → ℚ) hdm
    rw [eq_div_iff (by positivity : ((10 : ℚ) ^ k) ≠ 0)]
    rw [add_mul, div_mul_cancel₀ _ (by positivity : ((10 : ℚ) ^ k) ≠ 0)]
    rw [← hcast]
    ring
  rcases lt_or_ge j 0 with hj | hj
  · have hrd2 : renderDec j k = '-' :: (I ++ '.' :: F) := by
      rw [hrd, if_pos hj]
      rfl
    have hsign : stripSign ('-' :: (I ++ '.' :: F)) = (-1, I ++ '.' :: F) := by
      rw [stripSign]
      simp
    rw [pyFloatParse]
    rw [show (⟨renderDec j k⟩ : String).data = renderDec j k from rfl]
    rw [pyTransformDecimal_ascii _ hascii, Option.some_bind]
    rw [hstrip, hrd2]
    rw [pyFloatParseCore]
    simp only [hsign, hnoE, hdot, if_neg hIne, hIval, hFval, if_neg hFne,
      Option.some_bind]
    rw [if_neg (by omega)]
    refine congrArg some (congrArg toDouble ?_)
    rw [qmul_eq, qmul_eq, qadd_eq, qpow10_eq, divInt_one_eq, Rat.divInt_eq_div]
    push_cast
    rw [hvalue]
    rw [show ((j.natAbs : ℚ)) = -(j : ℚ) by
      rw [Int.cast_natAbs, abs_of_neg hj]
      push_cast
      ring]
    rw [zpow_zero]
    ring
  · have hrd2 : renderDec j k = I ++ '.' :: F := by
      rw [hrd, if_neg (by omega)]
      rfl
    obtain ⟨c, t, hc⟩ := List.exists_cons_of_ne_nil hIne
    have hcdig := hIdig c (hc ▸ List.mem_cons_self c t)
    have hfacts := isAsciiDigit_char_facts c hcdig
    have hsign : stripSign (I ++ '.' :: F) = (1, I ++ '.' :: F) := by
      rw [hc, List.cons_append, stripSign]
      rw [if_neg hfacts.2.1, if_neg hfacts.2.2.1]
    rw [pyFloatParse]
    rw [show (⟨renderDec j k⟩ : String).data = renderDec j k from rfl]
    rw [pyTransformDecimal_ascii _ hascii, Option.some_bind]
    rw [hstrip, hrd2]
    rw [pyFloatParseCore]
    simp only [hsign, hnoE, hdot, if_neg hIne, hIval, hFval, if_neg hFne,
      Option.some_bind]
    rw [if_neg (by omega)]
    refine congrArg some (congrArg toDouble ?_)
    rw [qmul_eq, qmul_eq, qadd_eq, qpow10_eq, divInt_one_eq, Rat.divInt_eq_div]
    push_cast
    rw [hvalue]
    rw [show ((j.natAbs : ℚ)) = (j : ℚ) by
      rw [Int.cast_natAbs, abs_of_nonneg hj]]
    rw [zpow_zero]
    ring

/-- The rendering of a decimal always contains a `'.'`. -/
theorem pyIn_dot_renderDec (j : ℤ) (k : Nat) :
    pyIn '.' ⟨renderDec j k⟩ = true := by
  rw [pyIn]
  apply List.elem_eq_true_of_mem
  rw [show renderDec j k = (if j < 0 then ['-'] else []) ++ natChars (j.natAbs / 10 ^ k) ++
    '.' :: (List.replicate (k - (natChars (j.natAbs % 10 ^ k)).length) '0' ++
      natChars (j.natAbs % 10 ^ k)) from rfl]
  exact List.mem_append.2 (Or.inr (List.mem_cons_self _ _))

/-! ## Money-valued doubles round-trip through `str` and `float` -/

/-- A "money-like" float: the double nearest to an integer number of cents
(bounded far inside the range where doubles resolve cents exactly and
`str` uses positional notation). -/
def MoneyLike (q : ℚ) : Prop :=
  ∃ m : ℤ, |m| ≤ 10 ^ 13 ∧ q = toDouble ((m : ℚ) / 100)

theorem toDouble_zero : toDouble 0 = 0 := by rw [toDouble, if_pos rfl]

/-- Scaling a money double by 100 and rounding recovers the cents. -/
theorem money_rheInt (m : ℤ) (hm : |m| ≤ 10 ^ 13) :
    rheInt (toDouble ((m : ℚ) / 100) * 100) = m := by
  by_cases hm0 : m = 0
  · subst hm0
    rw [show ((0 : ℤ) : ℚ) / 100 = 0 by norm_num, toDouble_zero]
    rw [show (0 : ℚ) * 100 = ((0 : ℤ) : ℚ) by norm_num]
    exact rheInt_intCast 0
  · have hx : (m : ℚ) / 100 ≠ 0 := by
      intro hcon
      apply hm0
      field_simp at hcon
      exact_mod_cast hcon
    have herr := toDouble_err _ hx
    apply rheInt_eq_of_near
    have h1 : |toDouble ((m : ℚ) / 100) * 100 - m| =
        100 * |toDouble ((m : ℚ) / 100) - (m : ℚ) / 100| := by
      rw [show (100 : ℚ) * |toDouble ((m : ℚ) / 100) - (m : ℚ) / 100| =
        |(100 : ℚ)| * |toDouble ((m : ℚ) / 100) - (m : ℚ) / 100| by norm_num]
      rw [← abs_mul]
      congr 1
      ring
    rw [h1]
    have habs : |(m : ℚ)| ≤ 10 ^ 13 := by
      rw [← Int.cast_abs]
      exact_mod_cast hm
    calc 100 * |toDouble ((m : ℚ) / 100) - (m : ℚ) / 100|
        ≤ 100 * (|(m : ℚ) / 100| / 2 ^ 52) :=
          mul_le_mul_of_nonneg_left herr (by norm_num)
      _ = |(m : ℚ)| / 2 ^ 52 := by
          rw [abs_div, show |(100 : ℚ)| = 100 by norm_num]
          ring
      _ ≤ 10 ^ 13 / 2 ^ 52 := by gcongr
      _ < 1 / 2 := by norm_num

theorem money_decApprox2 (q : ℚ) (hq : MoneyLike q) : toDouble (decApprox q 2) = q := by
  obtain ⟨m, hm, rfl⟩ := hq
  rw [decApprox_eq]
  rw [show ((10 : ℚ) ^ (2 : ℕ)) = 100 by norm_num]
  rw [money_rheInt m hm]

theorem strK_pos (q : ℚ) : 1 ≤ strK q := by
  rw [strK]
  cases hfind : (List.range' 1 17).find? (fun k => decide (toDouble (decApprox q k) = q)) with
  | none => simp
  | some k =>
      have hmem := List.mem_of_find?_eq_some hfind
      have hb : 1 ≤ k ∧ k < 1 + 17 := List.mem_range'_1.1 hmem
      simpa using hb.1

theorem strK_spec (q : ℚ) (hq : MoneyLike q) : toDouble (decApprox q (strK q)) = q := by
  rw [strK]
  cases hfind : (List.range' 1 17).find? (fun k => decide (toDouble (decApprox q k) = q)) with
  | none =>
      exfalso
      have h2 := List.find?_eq_none.1 hfind 2 (by decide)
      rw [money_decApprox2 q hq] at h2
      simp at h2
  | some k =>
      have hp := List.find?_some hfind
      simp only [decide_eq_true_eq] at hp
      simp only [Option.getD_some]
      exact hp

/-- For a money double, `float(str(q)) == q` and `str(q)` contains `'.'`. -/
theorem pyFloatStr_moneylike (q : ℚ) (hq : MoneyLike q) :
    pyFloatParse (pyFloatStr q) = some q ∧ pyIn '.' (pyFloatStr q) = true := by
  constructor
  · rw [pyFloatStr]
    rw [pyFloatParse_renderDec _ _ (strK_pos q)]
    rw [show ((decScaled q (strK q) : ℚ)) / 10 ^ strK q = decApprox q (strK q) by
      rw [decApprox_eq, decScaled_eq]]
    exact congrArg some (strK_spec q hq)
  · exact pyIn_dot_renderDec _ _

/-! ## Round-trip of the structural codec on database-shaped values -/

/-- A string the decoder would reinterpret as a number: it contains a `'.'`
and parses as a float, or it is all digits. -/
def NumericLooking (s : String) : Prop :=
  (pyIn '.' s = true ∧ (pyFloatParse s).isSome) ∨ pyIsDigit s = true

instance : DecidablePred NumericLooking := fun s => by
  rw [NumericLooking]
  infer_instance

/-- What `decode_structure` does to an encoded string leaf: decode it back
(always succeeds on well-formed encodings) and classify the result. -/
theorem decode_encoded_leaf (t : String) :
    decode_structure (.pstr (encode_text t)) =
      .ok (if pyIn '.' t then
             match pyFloatParse t with
             | some q => PyVal.pfloat q
             | none => PyVal.pstr t
           else if pyIsDigit t then
             match pyIntParse t with
             | some n => PyVal.pint n
             | none => PyVal.pstr t
           else PyVal.pstr t) := by
  rw [decode_structure]
  rw [maybe_decode_encode_text]
  cases hb1 : pyIn '.' t with
  | true =>
      cases hp : pyFloatParse t <;> simp [hb1, hp]
  | false =>
      cases hb2 : pyIsDigit t with
      | true => cases hp : pyIntParse t <;> simp [hb1, hb2, hp]
      | false => simp [hb1, hb2]

/-- Leaf case of the round trip: a non-numeric-looking string survives. -/
theorem decode_encode_plain_str (s : String) (hs : ¬ NumericLooking s) :
    decode_structure (encode_structure (.pstr s)) = .ok (.pstr s) := by
  rw [show encode_structure (.pstr s) = .pstr (encode_text s) from rfl]
  rw [decode_encoded_leaf]
  rw [NumericLooking, not_or] at hs
  by_cases h1 : pyIn '.' s = true
  · have hnone : pyFloatParse s = none := by
      cases hp : pyFloatParse s with
      | none => rfl
      | some q => exact absurd ⟨h1, by rw [hp]; rfl⟩ hs.1
    rw [if_pos h1, hnone]
  · have h2 : pyIsDigit s ≠ true := hs.2
    rw [if_neg h1, if_neg h2]

/-- Non-ASCII Unicode digits are numeric-looking: the Arabic-Indic digit
string `"٥"` decodes to the integer `5` and the dotted `"٢.٥"` to the
double `2.5`, exactly as in CPython; such leaves are excluded from the
round-trip domain below by `NumericLooking`. -/
theorem decode_encode_unicode_digit :
    decode_structure (.pstr (encode_text "٥")) = .ok (.pint 5) ∧
    decode_structure (.pstr (encode_text "٢.٥")) = .ok (.pfloat (Rat.divInt 5 2)) ∧
    NumericLooking "٥" ∧ NumericLooking "٢.٥" := by
  refine ⟨?_, ?_, ?_, ?_⟩
  · rw [decode_encoded_leaf]
    simp [show pyIn '.' "٥" = false from by decide,
      show pyIsDigit "٥" = true from by decide,
      show pyIntParse "٥" = some 5 from by decide]
  · rw [decode_encoded_leaf]
    simp [show pyIn '.' "٢.٥" = true from by decide,
      show pyFloatParse "٢.٥" = some (Rat.divInt 5 2) from by decide]
  · exact Or.inr (by decide)
  · refine Or.inl ⟨by decide, ?_⟩
    rw [show pyFloatParse "٢.٥" = some (Rat.divInt 5 2) from by decide]
    rfl

/-- Leaf case of the round trip: a money float survives. -/
theorem decode_encode_money (q : ℚ) (hq : MoneyLike q) :
    decode_structure (encode_structure (.pfloat q)) = .ok (.pfloat q) := by
  rw [show encode_structure (.pfloat q) = .pstr (encode_text (pyFloatStr q)) from rfl]
  rw [decode_encoded_leaf]
  obtain ⟨hparse, hdot⟩ := pyFloatStr_moneylike q hq
  rw [if_pos hdot, hparse]

theorem decodeValList_roundtrip (l : List PyVal)
    (H : ∀ v ∈ l, decode_structure (encode_structure v) = .ok v) :
    decodeValList (encodeValList l) = .ok l := by
  induction l with
  | nil => rfl
  | cons v rest ih =>
      rw [encodeValList, decodeValList]
      rw [H v (List.mem_cons_self v rest)]
      rw [ih (fun x hx => H x (List.mem_cons_of_mem v hx))]

theorem decodePairList_roundtrip (l : List (String × PyVal))
    (H : ∀ p ∈ l, decode_structure (encode_structure p.2) = .ok p.2) :
    decodePairList (encodePairList l) = .ok l := by
  induction l with
  | nil => rfl
  | cons p rest ih =>
      obtain ⟨k, v⟩ := p
      rw [encodePairList, decodePairList]
      rw [H ⟨k, v⟩ (List.mem_cons_self _ rest)]
      rw [ih (fun x hx => H x (List.mem_cons_of_mem _ hx))]

/-- The shapes of values the Persistent Store writes: nested mappings and
sequences whose leaves are plain (non-numeric-looking) strings and
money-like floats. -/
inductive DBShaped : PyVal → Prop
  | str (s : String) : ¬ NumericLooking s → DBShaped (.pstr s)
  | flt (q : ℚ) : MoneyLike q → DBShaped (.pfloat q)
  | list (l : List PyVal) : (∀ v ∈ l, DBShaped v) → DBShaped (.plist l)
  | dict (l : List (String × PyVal)) : (∀ p ∈ l, DBShaped p.2) → DBShaped (.pdict l)

theorem dbshaped_roundtrip (v : PyVal) (hv : DBShaped v) :
    decode_structure (encode_structure v) = .ok v := by
  induction hv with
  | str s hs => exact decode_encode_plain_str s hs
  | flt q hq => exact decode_encode_money q hq
  | list l hl ih =>
      rw [show encode_structure (.plist l) = .plist (encodeValList l) from rfl]
      rw [decode_structure]
      rw [decodeValList_roundtrip l ih]
  | dict l hl ih =>
      rw [show encode_structure (.pdict l) = .pdict (encodePairList l) from rfl]
      rw [decode_structure]
      rw [decodePairList_roundtrip l ih]

/-! ## Claims about the structural codec -/

/-- **C1.** `decode_structure(encode_structure(v)) == v` for every
database-shaped value (nested mappings/sequences of plain strings and
money floats); and the string leaf `"007"` instead round-trips to the
integer `7`. -/
theorem db_roundtrip_spec :
    (∀ v : PyVal, DBShaped v → decode_structure (encode_structure v) = .ok v) ∧
    decode_structure (encode_structure (.pstr "007")) = .ok (.pint 7) := by
  constructor
  · exact dbshaped_roundtrip
  · have henc : encode_structure (.pstr "007") = .pstr (encode_text "007") := by
      simp [encode_structure]
    rw [henc, decode_encoded_leaf]
    simp [show pyIn '.' "007" = false from by decide,
      show pyIsDigit "007" = true from by decide,
      show pyIntParse "007" = some 7 from by decide]

/-- Witness for C1: a concrete two-user-field record with a money float and
plain strings round-trips, and `"007"` becomes `7`. -/
theorem db_roundtrip_spec_witness :
    decode_structure (encode_structure (.pdict [("ana",
        .plist [.pfloat (toDouble (((1250 : ℤ) : ℚ) / 100)), .pstr "food"]),
      ("note", .pstr "lunch with friends")])) =
      .ok (.pdict [("ana",
        .plist [.pfloat (toDouble (((1250 : ℤ) : ℚ) / 100)), .pstr "food"]),
      ("note", .pstr "lunch with friends")]) ∧
    decode_structure (encode_structure (.pstr "007")) = .ok (.pint 7) := by
  constructor
  · refine db_roundtrip_spec.1 _ (DBShaped.dict _ ?_)
    intro p hp
    rcases List.mem_cons.1 hp with rfl | hp
    · refine DBShaped.list _ ?_
      intro v hv
      rcases List.mem_cons.1 hv with rfl | hv
      · exact DBShaped.flt _ ⟨1250, by norm_num, rfl⟩
      · rcases List.mem_singleton.1 hv with rfl
        exact DBShaped.str _ (by decide)
    · rcases List.mem_singleton.1 hp with rfl
      exact DBShaped.str _ (by decide)
  · exact db_roundtrip_spec.2

/-- **C9.** A negative integer leaf does not survive the round trip: it
comes back as its decimal string (the decoded text has no `'.'` and fails
`isdigit` because of the minus sign). -/
theorem negative_int_roundtrip_string :
    ∀ n : ℤ, n < 0 →
      decode_structure (encode_structure (.pint n)) = .ok (.pstr (pyIntStr n)) := by
  intro n hn
  have henc : encode_structure (.pint n) = .pstr (encode_text (pyIntStr n)) := by
    simp [encode_structure]
  rw [henc, decode_encoded_leaf]
  have hdata : (pyIntStr n).data = '-' :: natChars n.natAbs := by
    rw [pyIntStr, if_pos hn]
    rw [show ("-" ++ pyNatStr n.natAbs).data = "-".data ++ (pyNatStr n.natAbs).data
      from String.data_append _ _]
    rfl
  have h1 : pyIn '.' (pyIntStr n) = false := by
    rw [pyIn, hdata]
    have hnm : '.' ∉ '-' :: natChars n.natAbs := by
      intro hmem
      rcases List.mem_cons.1 hmem with h | h
      · exact absurd h (by decide)
      · exact (natChars_plain _ '.' h).2.2.2.1 rfl
    exact Bool.eq_false_iff.2 (fun hc => hnm (List.mem_of_elem_eq_true hc))
  have h2 : pyIsDigit (pyIntStr n) = false := by
    rw [pyIsDigit, hdata]
    simp [show pyIsDigitCode 45 = false from by decide]
  simp [h1, h2]

/-- Witness for C9 at `n = -5`. -/
theorem negative_int_roundtrip_string_witness :
    ((-5 : ℤ) < 0) ∧
    decode_structure (encode_structure (.pint (-5))) = .ok (.pstr (pyIntStr (-5))) :=
  ⟨by decide, negative_int_roundtrip_string (-5) (by decide)⟩

/-- **C2 (counterexample).** Booleans are NOT passed through unchanged by
`encode_structure`: `True` is caught by the `isinstance(obj, (int, float))`
branch (Python `bool` is a subclass of `int`) and encoded as the code
points of `"True"`. -/
theorem bool_unchanged_counterexample :
    encode_structure (.pbool true) = .pstr "84 114 117 101" ∧
    encode_structure (.pbool true) ≠ .pbool true := by
  have henc : encode_structure (.pbool true) = .pstr (encode_text (pyBoolStr true)) := by
    simp [encode_structure]
  constructor
  · rw [henc]
    rw [show encode_text (pyBoolStr true) = "84 114 117 101" from by decide]
  · rw [henc]
    intro hcon
    exact PyVal.noConfusion hcon

/-- **C2 (amended).** Booleans take the numeric branch: `encode_structure`
stringifies and encodes them, and the round trip yields the string
`"True"`/`"False"`, not the boolean. -/
theorem bool_roundtrip_amended :
    ∀ b : Bool,
      encode_structure (.pbool b) = .pstr (encode_text (pyBoolStr b)) ∧
      decode_structure (encode_structure (.pbool b)) = .ok (.pstr (pyBoolStr b)) := by
  intro b
  have henc : encode_structure (.pbool b) = .pstr (encode_text (pyBoolStr b)) := by
    simp [encode_structure]
  refine ⟨henc, ?_⟩
  rw [henc, decode_encoded_leaf]
  cases b
  · simp [show pyIn '.' (pyBoolStr false) = false from by decide,
      show pyIsDigit (pyBoolStr false) = false from by decide]
  · simp [show pyIn '.' (pyBoolStr true) = false from by decide,
      show pyIsDigit (pyBoolStr true) = false from by decide]

/-- **C3 (code bug).** `maybe_decode_text` is not total-for-fallback as its
docstring promises: a huge numeric token makes `chr` raise `OverflowError`,
which the `except ValueError` handler does not catch; and a whitespace-only
input returns `""`, not the original string. -/
theorem maybe_decode_overflow_bug :
    maybe_decode_text "10000000000000000000" = .error .overflowError ∧
    maybe_decode_text " " = .ok "" ∧ (" " : String) ≠ "" := by
  refine ⟨by rfl, by rfl, by decide⟩

/-! ## The streak tracker

Source: `increment_streak` (`Bondï_app.py` lines 373–401).  Dates are
modelled by their proleptic ordinal (an integer): `date.isoformat` is
injective, so the source's string comparison of ISO dates is date
equality, and `today - last_d == timedelta(days=1)` is an ordinal
difference of 1.  The stored `last_active_on` is `None` or a (nonempty)
ISO string, so its truthiness test is `Option.isSome`. -/

structure StreakState where
  count : ℤ
  last_active_on : Option ℤ
  deriving DecidableEq, Repr

/-- `increment_streak`: same-day events are ignored; a gap of exactly one
day increments the count; anything else (first activity, longer gaps,
backdated events) resets it to 1; the last-active date becomes `today`. -/
def increment_streak (s : StreakState) (today : ℤ) : StreakState :=
  if s.last_active_on = some today then s
  else
    { count :=
        match s.last_active_on with
        | some last => if today - last = 1 then s.count + 1 else 1
        | none => 1
      last_active_on := some today }

theorem increment_streak_last (s : StreakState) (D : ℤ) :
    (increment_streak s D).last_active_on = some D := by
  rw [increment_streak]
  split_ifs with h
  · rw [← h]
  · rfl

/-- **C5.** The streak transition: no-op on same-day repeats (hence
idempotent per day), `+1` on an exactly-one-day gap, reset to `1` in every
other case (no prior activity, longer gaps, backdated dates), and the
last-active date always ends up at `D`. -/
theorem increment_streak_spec :
    ∀ (c : ℤ) (last : Option ℤ) (D : ℤ),
      increment_streak ⟨c, some D⟩ D = ⟨c, some D⟩ ∧
      increment_streak (increment_streak ⟨c, last⟩ D) D = increment_streak ⟨c, last⟩ D ∧
      increment_streak ⟨c, some (D - 1)⟩ D = ⟨c + 1, some D⟩ ∧
      increment_streak ⟨c, none⟩ D = ⟨1, some D⟩ ∧
      (∀ last₂ : Option ℤ, last₂ ≠ some D → last₂ ≠ some (D - 1) →
        increment_streak ⟨c, last₂⟩ D = ⟨1, some D⟩) ∧
      (increment_streak ⟨c, last⟩ D).last_active_on = some D := by
  intro c last D
  have hreset : ∀ last₂ : Option ℤ, last₂ ≠ some D → last₂ ≠ some (D - 1) →
      increment_streak ⟨c, last₂⟩ D = ⟨1, some D⟩ := by
    intro last₂ h1 h2
    rw [increment_streak]
    rw [if_neg (by simpa using h1)]
    cases last₂ with
    | none => rfl
    | some l =>
        have hne : ¬ (D - l = 1) := fun hc => h2 (congrArg some (by omega))
        simp only [hne, if_false]
  refine ⟨?_, ?_, ?_, ?_, hreset, increment_streak_last _ _⟩
  · rw [increment_streak, if_pos rfl]
  · conv_lhs => rw [increment_streak]
    rw [if_pos (increment_streak_last _ _)]
  · rw [increment_streak]
    rw [if_neg (by simp only [Option.some.injEq]; omega)]
    simp only [show D - (D - 1) = 1 from by omega, if_pos]
  · rw [increment_streak, if_neg (by simp)]

/-- Witness for C5: a three-day-old last activity resets the count to 1 and
moves the date forward. -/
theorem increment_streak_spec_witness :
    (some (7 : ℤ) ≠ some (10 : ℤ)) ∧ (some (7 : ℤ) ≠ some ((10 : ℤ) - 1)) ∧
    increment_streak ⟨5, some 7⟩ 10 = ⟨1, some 10⟩ :=
  ⟨by decide, by decide,
    (increment_streak_spec 5 (some 7) 10).2.2.2.2.1 (some 7) (by decide) (by decide)⟩

/-! ## The split engine

Source: `split_equally` / `split_by_percentage` (`Bondï_app.py` lines
424–444).  Python dicts are modelled as association lists (in insertion
order); `{m: each for m in members}` deduplicates repeated members, which
is observationally identical under `lookup` here since all values are
equal.  The literals `0.01` and `100.0` are the doubles nearest those
decimals. -/

/-- `split_equally`: drop falsy (empty) member names, then give every
member `round(float(total) / n, 2)`, computed once. -/
def split_equally (total_amount : ℚ) (members : List String) : List (String × ℚ) :=
  let ms := members.filter (fun m => !(m == ""))
  if ms = [] then []
  else ms.map (fun m => (m, pyRound2 (fdiv total_amount (ms.length : ℚ))))

/-- `split_by_percentage`: reject (`ValueError`) unless
`abs(round(sum(pcts), 2) - 100.0) > 0.01` fails, in double arithmetic;
otherwise each member gets `round((pct / 100.0) * float(total), 2)`. -/
def split_by_percentage (total_amount : ℚ) (percentages : List (String × ℚ)) :
    Except PyErr (List (String × ℚ)) :=
  let total_pct := pyRound2 (fsum (percentages.map (fun p => p.2)))
  if pyFloat (Rat.divInt 1 100) < qabs (fsub total_pct 100) then .error .valueError
  else .ok (percentages.map (fun p => (p.1, pyRound2 (fmul (fdiv p.2 100) total_amount))))

theorem map_fst_pair_const (v : ℚ) (l : List String) :
    (l.map (fun x => (x, v))).map Prod.fst = l := by
  induction l with
  | nil => rfl
  | cons a t ih => simp [ih]

theorem lookup_const_map (v : ℚ) :
    ∀ (ms : List String) (m : String), m ∈ ms →
      (ms.map (fun x => (x, v))).lookup m = some v := by
  intro ms
  induction ms with
  | nil => intro m hm; simp at hm
  | cons a t ih =>
      intro m hm
      by_cases he : m = a
      · subst he
        simp [List.lookup_cons]
      · have hba : (m == a) = false := by simp [he]
        rw [List.map_cons, List.lookup_cons, hba]
        exact ih m ((List.mem_cons.1 hm).resolve_left he)

set_option maxRecDepth 8000 in
/-- **C7.** `split_equally` filters out empty member names, returns the
empty map when nobody is left, gives every remaining member
`round(total / n, 2)` computed independently, and in particular splits
`100.0` among three members as exactly `33.33` each. -/
theorem split_equally_spec :
    ∀ (total : ℚ) (members : List String),
      (members.filter (fun m => !(m == "")) = [] → split_equally total members = []) ∧
      ((split_equally total members).map Prod.fst =
        members.filter (fun m => !(m == ""))) ∧
      (∀ m ∈ members.filter (fun m => !(m == "")),
        (split_equally total members).lookup m =
          some (pyRound2 (fdiv total ((members.filter (fun m => !(m == ""))).length : ℚ)))) ∧
      split_equally 100 ["a", "b", "c"] =
        [("a", pyFloat (Rat.divInt 3333 100)), ("b", pyFloat (Rat.divInt 3333 100)),
         ("c", pyFloat (Rat.divInt 3333 100))] := by
  intro total members
  refine ⟨?_, ?_, ?_, ?_⟩
  · intro h
    rw [split_equally]
    simp only [h, if_pos]
  · rw [split_equally]
    by_cases h : members.filter (fun m => !(m == "")) = []
    · simp [h]
    · simp only [h, if_neg]
      exact map_fst_pair_const _ _
  · intro m hm
    rw [split_equally]
    have hne : members.filter (fun m => !(m == "")) ≠ [] :=
      List.ne_nil_of_mem hm
    simp only [hne, if_neg]
    exact lookup_const_map _ _ m hm
  · decide

set_option maxRecDepth 8000 in
/-- Witness for C7: a list with one empty name keeps only `"a"`, whose
share is `round(10 / 1, 2)`; and the `33.33` example holds. -/
theorem split_equally_spec_witness :
    ("a" ∈ ["", "a"].filter (fun m => !(m == ""))) ∧
    (split_equally 10 ["", "a"]).lookup "a" =
      some (pyRound2 (fdiv 10 ((["", "a"].filter (fun m => !(m == ""))).length : ℚ))) ∧
    split_equally 100 ["a", "b", "c"] =
      [("a", pyFloat (Rat.divInt 3333 100)), ("b", pyFloat (Rat.divInt 3333 100)),
       ("c", pyFloat (Rat.divInt 3333 100))] :=
  ⟨by decide, (split_equally_spec 10 ["", "a"]).2.2.1 "a" (by decide),
    (split_equally_spec 0 []).2.2.2⟩

set_option maxRecDepth 8000 in
/-- **C6 (counterexample).** Percentages `{a: 50.0, b: 50.008}` sum to
within `0.01` of `100` (both as the exact decimal `100.008` and as the
float sum), yet `split_by_percentage` rejects them: the code first rounds
the sum to `100.01`, and `100.01 - 100.0` exceeds `0.01` as doubles. -/
theorem split_by_percentage_tolerance_counterexample :
    qabs (qsub (fsum [(50 : ℚ), toDouble (Rat.divInt 50008 1000)]) 100) ≤ Rat.divInt 1 100 ∧
    (split_by_percentage 200 [("a", 50), ("b", toDouble (Rat.divInt 50008 1000))]).isOk
      = false := by
  constructor
  · decide
  · decide

set_option maxRecDepth 8000 in
/-- **C6 (amended).** `split_by_percentage` fails with `ValueError` iff
`abs(round(sum(pcts), 2) - 100.0) > 0.01` holds in double arithmetic;
otherwise every member's share is `round(pct/100 * total, 2)`; splitting
`200.0` as `{a: 50, b: 50}` yields `{a: 100.0, b: 100.0}` and
`{a: 50, b: 49}` fails. -/
theorem split_by_percentage_amended :
    ∀ (total : ℚ) (ps : List (String × ℚ)),
      (split_by_percentage total ps = .error .valueError ↔
        pyFloat (Rat.divInt 1 100) <
          qabs (fsub (pyRound2 (fsum (ps.map (fun p => p.2)))) 100)) ∧
      (¬ pyFloat (Rat.divInt 1 100) <
          qabs (fsub (pyRound2 (fsum (ps.map (fun p => p.2)))) 100) →
        split_by_percentage total ps =
          .ok (ps.map (fun p => (p.1, pyRound2 (fmul (fdiv p.2 100) total))))) ∧
      split_by_percentage 200 [("a", 50), ("b", 50)] = .ok [("a", 100), ("b", 100)] ∧
      (split_by_percentage 200 [("a", 50), ("b", 49)]).isOk = false := by
  intro total ps
  refine ⟨?_, ?_, ?_, ?_⟩
  · simp only [split_by_percentage]
    split_ifs with h
    · simp [h]
    · simp [h]
  · intro h
    simp only [split_by_percentage]
    rw [if_neg h]
  · decide
  · decide

set_option maxRecDepth 8000 in
/-- Witness for C6's amended success case at `{a: 50, b: 50}`. -/
theorem split_by_percentage_amended_witness :
    (¬ pyFloat (Rat.divInt 1 100) <
        qabs (fsub (pyRound2 (fsum ([("a", (50 : ℚ)), ("b", 50)].map (fun p => p.2)))) 100)) ∧
    split_by_percentage 200 [("a", (50 : ℚ)), ("b", 50)] =
      .ok ([("a", (50 : ℚ)), ("b", 50)].map
        (fun p => (p.1, pyRound2 (fmul (fdiv p.2 100) 200)))) :=
  ⟨by decide, (split_by_percentage_amended 200 [("a", 50), ("b", 50)]).2.1 (by decide)⟩

/-! ## Sorting expenses

Source: `quicksort_expenses_by_amount` (`Bondï_app.py` lines 121–136).
An expense record is a dict with an `"amount"` key and other payload
fields; only `"amount"` is inspected by the sort.  The source's
`len < 2` base case coincides with the `[]` and singleton cases of the
recursion below. -/

structure Expense where
  amount : ℚ
  category : String
  note : String
  deriving DecidableEq, Repr

/-- The strictly-higher partition predicate `e["amount"] > pivot_amount`. -/
def gtAmount (p : ℚ) (e : Expense) : Bool := decide (p < e.amount)

/-- The lower-or-equal partition predicate `e["amount"] <= pivot_amount`. -/
def leAmount (p : ℚ) (e : Expense) : Bool := decide (e.amount ≤ p)

/-- `quicksort_expenses_by_amount`: pick the head as pivot, recurse on the
strictly-higher and the lower-or-equal partitions (both preserve relative
order), and concatenate descending. -/
def quicksort_expenses_by_amount : List Expense → List Expense
  | [] => []
  | pivot :: rest =>
      quicksort_expenses_by_amount (rest.filter (gtAmount pivot.amount)) ++
        pivot :: quicksort_expenses_by_amount (rest.filter (leAmount pivot.amount))
  termination_by l => l.length
  decreasing_by
    · exact Nat.lt_succ_of_le (List.length_filter_le _ _)
    · exact Nat.lt_succ_of_le (List.length_filter_le _ _)

theorem quicksort_perm (l : List Expense) :
    (quicksort_expenses_by_amount l).Perm l := by
  induction l using quicksort_expenses_by_amount.induct with
  | case1 => rw [quicksort_expenses_by_amount]
  | case2 pivot rest hgt hle =>
      rw [quicksort_expenses_by_amount]
      have hparts : (rest.filter (gtAmount pivot.amount) ++
          rest.filter (leAmount pivot.amount)).Perm rest := by
        have hneg : ∀ e : Expense, leAmount pivot.amount e = !gtAmount pivot.amount e := by
          intro e
          rw [gtAmount, leAmount]
          by_cases h : e.amount ≤ pivot.amount
          · simp [h, not_lt.2 h]
          · simp [h, lt_of_not_le h]
        rw [List.filter_congr (fun e _ => hneg e)]
        exact List.filter_append_perm _ rest
      have hstep : (quicksort_expenses_by_amount (rest.filter (gtAmount pivot.amount)) ++
          pivot :: quicksort_expenses_by_amount (rest.filter (leAmount pivot.amount))).Perm
            ((rest.filter (gtAmount pivot.amount)) ++
              pivot :: (rest.filter (leAmount pivot.amount))) :=
        List.Perm.append hgt (List.Perm.cons pivot hle)
      exact hstep.trans ((List.perm_middle).trans (List.Perm.cons pivot hparts))

theorem quicksort_sorted (l : List Expense) :
    (quicksort_expenses_by_amount l).Pairwise (fun x y => y.amount ≤ x.amount) := by
  induction l using quicksort_expenses_by_amount.induct with
  | case1 =>
      rw [quicksort_expenses_by_amount]
      exact List.Pairwise.nil
  | case2 pivot rest hgt hle =>
      rw [quicksort_expenses_by_amount]
      rw [List.pairwise_append]
      refine ⟨hgt, ?_, ?_⟩
      · rw [List.pairwise_cons]
        refine ⟨?_, hle⟩
        intro e he
        have hmem : e ∈ rest.filter (leAmount pivot.amount) :=
          (quicksort_perm _).mem_iff.1 he
        have := List.of_mem_filter hmem
        rw [leAmount] at this
        exact of_decide_eq_true this
      · intro a ha b hb
        have hmema : a ∈ rest.filter (gtAmount pivot.amount) :=
          (quicksort_perm _).mem_iff.1 ha
        have hagt := List.of_mem_filter hmema
        rw [gtAmount] at hagt
        have hagt := of_decide_eq_true hagt
        rcases List.mem_cons.1 hb with rfl | hb
        · exact le_of_lt hagt
        · have hmemb : b ∈ rest.filter (leAmount pivot.amount) :=
            (quicksort_perm _).mem_iff.1 hb
          have hble := List.of_mem_filter hmemb
          rw [leAmount] at hble
          exact le_trans (of_decide_eq_true hble) (le_of_lt hagt)

/-- The amount-`a` records of the output are exactly those of the input,
in the same order: this is stability. -/
theorem quicksort_stable (a : ℚ) (l : List Expense) :
    (quicksort_expenses_by_amount l).filter (fun e => decide (e.amount = a)) =
      l.filter (fun e => decide (e.amount = a)) := by
  induction l using quicksort_expenses_by_amount.induct with
  | case1 => rw [quicksort_expenses_by_amount]
  | case2 pivot rest hgt hle =>
      rw [quicksort_expenses_by_amount]
      rw [List.filter_append, hgt]
      rcases lt_trichotomy a pivot.amount with hcmp | hcmp | hcmp
      · have hpiv : (decide (pivot.amount = a) : Bool) = false := by
          simp only [decide_eq_false_iff_not]
          exact fun hc => absurd hc.symm (ne_of_lt hcmp)
        simp only [List.filter_cons, hpiv, Bool.false_eq_true, if_false]
        rw [hle, List.filter_filter, List.filter_filter]
        rw [show (fun e => decide (e.amount = a) && gtAmount pivot.amount e) =
            (fun _ => false) from funext fun e => by
          by_cases he : e.amount = a
          · simp [he, gtAmount, not_lt.2 (le_of_lt hcmp)]
          · simp [he]]
        rw [List.filter_false]
        rw [show (fun e => decide (e.amount = a) && leAmount pivot.amount e) =
            (fun e => decide (e.amount = a)) from funext fun e => by
          by_cases he : e.amount = a
          · simp [he, leAmount, le_of_lt hcmp]
          · simp [he]]
        rw [List.nil_append]
      · have hpiv : (decide (pivot.amount = a) : Bool) = true := by simp [hcmp]
        simp only [List.filter_cons, hpiv, if_true]
        rw [hle, List.filter_filter, List.filter_filter]
        rw [show (fun e => decide (e.amount = a) && gtAmount pivot.amount e) =
            (fun _ => false) from funext fun e => by
          by_cases he : e.amount = a
          · simp [he, gtAmount, hcmp]
          · simp [he]]
        rw [List.filter_false]
        rw [show (fun e => decide (e.amount = a) && leAmount pivot.amount e) =
            (fun e => decide (e.amount = a)) from funext fun e => by
          by_cases he : e.amount = a
          · simp [he, leAmount, hcmp]
          · simp [he]]
        rw [List.nil_append]
      · have hpiv : (decide (pivot.amount = a) : Bool) = false := by
          simp only [decide_eq_false_iff_not]
          exact fun hc => absurd hc (ne_of_lt hcmp)
        simp only [List.filter_cons, hpiv, Bool.false_eq_true, if_false]
        rw [hle, List.filter_filter, List.filter_filter]
        rw [show (fun e => decide (e.amount = a) && gtAmount pivot.amount e) =
            (fun e => decide (e.amount = a)) from funext fun e => by
          by_cases he : e.amount = a
          · simp [he, gtAmount, hcmp]
          · simp [he]]
        rw [show (fun e => decide (e.amount = a) && leAmount pivot.amount e) =
            (fun _ => false) from funext fun e => by
          by_cases he : e.amount = a
          · simp [he, leAmount, not_le.2 hcmp]
          · simp [he]]
        rw [List.filter_false, List.append_nil]

/-- **C8.** `quicksort_expenses_by_amount` returns a permutation of its
input, sorted descending by amount, and stably: the records of any given
amount appear in their original relative order. -/
theorem quicksort_spec (l : List Expense) :
    (quicksort_expenses_by_amount l).Perm l ∧
    (quicksort_expenses_by_amount l).Pairwise (fun x y => y.amount ≤ x.amount) ∧
    ∀ a : ℚ, (quicksort_expenses_by_amount l).filter (fun e => decide (e.amount = a)) =
      l.filter (fun e => decide (e.amount = a)) :=
  ⟨quicksort_perm l, quicksort_sorted l, fun a => quicksort_stable a l⟩

/-! ## Frame behavior of the sorting utilities

Python lists are mutable heap objects.  `selection_sort` (source lines
103–113) starts with `items = items[:]` — a fresh copy — and then sorts
the copy in place with index swaps, never writing to its argument;
`quicksort_expenses_by_amount` only reads its argument (slicing and list
comprehensions allocate fresh lists), so its heap effect is allocating
the sorted result.  To state this frame property, the heap is modelled
explicitly as a store of list values addressed by natural-number
references. -/

abbrev Heap (α : Type) : Type := List (List α)

def heapGet {α : Type} (h : Heap α) (r : Nat) : List α := h.getD r []

def heapSet {α : Type} (h : Heap α) (r : Nat) (v : List α) : Heap α := h.set r v

/-- Allocate a fresh cell holding `v`; returns the new heap and the
reference. -/
def heapAlloc {α : Type} (h : Heap α) (v : List α) : Heap α × Nat := (h ++ [v], h.length)

/-- The inner scan `for j in range(i+1, n): if items[j] < items[smallest]:
smallest = j` of `selection_sort`. -/
def minIdxScan (l : List String) (i : Nat) : Nat :=
  (List.range' (i + 1) (l.length - (i + 1))).foldl
    (fun smallest j => if l.getD j "" < l.getD smallest "" then j else smallest) i

/-- The simultaneous swap `items[i], items[s] = items[s], items[i]`. -/
def swapIdx (l : List String) (i j : Nat) : List String :=
  (l.set i (l.getD j "")).set j (l.getD i "")

/-- The outer loop `for i in range(n)` of `selection_sort`, operating on
the heap cell `rc` (the private copy). -/
def selLoopAux (rc : Nat) (h : Heap String) (i : Nat) : Nat → Heap String
  | 0 => h
  | fuel + 1 =>
      selLoopAux rc (heapSet h rc (swapIdx (heapGet h rc) i (minIdxScan (heapGet h rc) i)))
        (i + 1) fuel

/-- `selection_sort` on the heap: copy the argument (`items = items[:]`),
then sort the copy in place. -/
def selection_sort (h : Heap String) (r : Nat) : Heap String × Nat :=
  let items := heapGet h r
  let h1 := (heapAlloc h items).1
  let rc := (heapAlloc h items).2
  (selLoopAux rc h1 0 items.length, rc)

/-- `quicksort_expenses_by_amount` on the heap: read the argument, build
the sorted result in a fresh cell (the source performs no writes). -/
def quicksort_expenses_st (h : Heap Expense) (r : Nat) : Heap Expense × Nat :=
  heapAlloc h (quicksort_expenses_by_amount (heapGet h r))

theorem heapGet_alloc {α : Type} (h : Heap α) (v : List α) (r : Nat) (hr : r < h.length) :
    heapGet (heapAlloc h v).1 r = heapGet h r := by
  simp [heapGet, heapAlloc, List.getD]
  rw [List.getElem?_append, if_pos hr]

theorem heapGet_set_ne {α : Type} (h : Heap α) (rc r : Nat) (v : List α) (hne : r ≠ rc) :
    heapGet (heapSet h rc v) r = heapGet h r := by
  simp [heapGet, heapSet, List.getD]
  rw [List.getElem?_set_ne (fun hc => hne hc.symm)]

theorem selLoopAux_frame (rc : Nat) :
    ∀ (fuel : Nat) (h : Heap String) (i r : Nat), r ≠ rc →
      heapGet (selLoopAux rc h i fuel) r = heapGet h r := by
  intro fuel
  induction fuel with
  | zero => intro h i r _; rfl
  | succ f ih =>
      intro h i r hne
      rw [selLoopAux]
      rw [ih _ _ _ hne]
      exact heapGet_set_ne _ _ _ _ hne

/-- **C10.** Both sorting utilities return freshly allocated lists and
leave the cell holding the input list unchanged. -/
theorem sorts_leave_input_unchanged :
    (∀ (h : Heap String) (r : Nat), r < h.length →
      heapGet (selection_sort h r).1 r = heapGet h r ∧ (selection_sort h r).2 ≠ r) ∧
    (∀ (h : Heap Expense) (r : Nat), r < h.length →
      heapGet (quicksort_expenses_st h r).1 r = heapGet h r ∧
        (quicksort_expenses_st h r).2 ≠ r) := by
  constructor
  · intro h r hr
    constructor
    · rw [show (selection_sort h r).1 =
        selLoopAux (heapAlloc h (heapGet h r)).2 (heapAlloc h (heapGet h r)).1 0
          (heapGet h r).length from rfl]
      rw [selLoopAux_frame _ _ _ _ r (by rw [heapAlloc]; omega)]
      exact heapGet_alloc h _ r hr
    · rw [show (selection_sort h r).2 = h.length from rfl]
      omega
  · intro h r hr
    constructor
    · exact heapGet_alloc h _ r hr
    · rw [show (quicksort_expenses_st h r).2 = h.length from rfl]
      omega

/-- Witness for C10 on the one-cell heaps `[["b", "a"]]` and a two-expense
cell. -/
theorem sorts_leave_input_unchanged_witness :
    ((0 : Nat) < ([["b", "a"]] : Heap String).length) ∧
    (heapGet (selection_sort [["b", "a"]] 0).1 0 = heapGet [["b", "a"]] 0 ∧
      (selection_sort [["b", "a"]] 0).2 ≠ 0) ∧
    ((0 : Nat) < ([[⟨5, "food", ""⟩, ⟨7, "rent", ""⟩]] : Heap Expense).length) ∧
    (heapGet (quicksort_expenses_st [[⟨5, "food", ""⟩, ⟨7, "rent", ""⟩]] 0).1 0 =
        heapGet [[⟨5, "food", ""⟩, ⟨7, "rent", ""⟩]] 0 ∧
      (quicksort_expenses_st [[⟨5, "food", ""⟩, ⟨7, "rent", ""⟩]] 0).2 ≠ 0) :=
  ⟨by decide, sorts_leave_input_unchanged.1 [["b", "a"]] 0 (by decide),
   by decide, sorts_leave_input_unchanged.2 [[⟨5, "food", ""⟩, ⟨7, "rent", ""⟩]] 0 (by decide)⟩

end Bondi
